import Mathlib

/-!
Shallow embedding of the `rust_cp` command-line copy utility
(`src/main.rs`) and verification of its specification.

The program copies a file or (with `-r`) a directory tree, with optional
verbose progress notices (`-v`) and an interactive overwrite prompt (`-i`).

Modelling decisions (each mirrors a concrete construct of the source):
  * A filesystem path is a list of components (`Path`); `Path::join` with a
    file name is list append with a singleton.
  * The filesystem is an association list from paths to nodes (regular file
    with byte content, or directory), plus a set `denied` of paths on which
    `stat`/`open` fails with a permission error.  The root path `[]` is
    implicitly a directory.
  * `Path::exists` / `Path::is_dir` follow the Rust std semantics: they call
    `fs::metadata` and return `false` on ANY error, including permission
    denied (this is documented std behaviour and is what the binary links
    against).
  * `fs::copy` reads the whole source file and creates/truncates the
    destination, so the destination ends up holding exactly the source bytes;
    it fails if the source is missing, unreadable or a directory, if the
    destination is a directory, or if the destination's parent is missing or
    not a directory.
  * `fs::create_dir_all` creates every missing ancestor and fails if an
    existing component is a regular file.
  * `fs::read_dir` yields the base names of the direct children.
  * Process state `St` carries the filesystem, the remaining stdin lines
    (Rust's `read_line` returns `""` at end of input, which the code treats
    as a decline), and the stdout lines as an event trace `Ev` (one
    constructor per `print!`/`println!` in the source).
  * `copy_directory`'s recursion is embedded with an explicit fuel counter;
    running out of fuel yields the distinguished error `IOErr.fuelOut`,
    which no real operation returns, so "the traversal terminates" is
    expressed as "the result is never `fuelOut`".
-/

namespace RustCp

/-- A filesystem path, as its list of components. -/
abbrev Path := List String

/-- File contents, as a list of bytes. -/
abbrev Bytes := List Nat

/-- A filesystem node: a regular file with contents, or a directory. -/
inductive Node
  | file (content : Bytes)
  | dir
deriving DecidableEq

/-- I/O errors surfaced by the modelled OS primitives.  `fuelOut` is the
model-only marker for exhausting the recursion fuel. -/
inductive IOErr
  | notFound
  | permissionDenied
  | isADirectory
  | notADirectory
  | fuelOut
deriving DecidableEq

/-- The filesystem: an association list from paths to nodes, plus the set of
paths on which `stat`/`open` fails with permission denied. -/
structure FS where
  entries : List (Path × Node)
  denied : List Path
deriving DecidableEq

/-- Raw association-list lookup of a path. -/
def FS.lookup (fs : FS) (p : Path) : Option Node :=
  (fs.entries.find? fun e => e.1 = p).map Prod.snd

/-- The node at a path; the root `[]` is implicitly a directory. -/
def FS.node (fs : FS) (p : Path) : Option Node :=
  if p = [] then some Node.dir else fs.lookup p

/-- `fs::metadata`: permission failure on denied paths, `notFound` on absent
ones, otherwise the node. -/
def FS.metadata (fs : FS) (p : Path) : Except IOErr Node :=
  if p ∈ fs.denied then .error .permissionDenied
  else match fs.node p with
    | some n => .ok n
    | none => .error .notFound

/-- Rust `Path::exists`: true iff `fs::metadata` succeeds.  Any stat error —
including permission denied — reads as "does not exist". -/
def FS.pathExists (fs : FS) (p : Path) : Bool :=
  match fs.metadata p with
  | .ok _ => true
  | .error _ => false

/-- Rust `Path::is_dir`: true iff `fs::metadata` succeeds and reports a
directory. -/
def FS.isDir (fs : FS) (p : Path) : Bool :=
  match fs.metadata p with
  | .ok Node.dir => true
  | _ => false

/-- Insert (or overwrite) the node at a path. -/
def FS.insert (fs : FS) (p : Path) (n : Node) : FS :=
  { fs with entries := (p, n) :: fs.entries.filter fun e => ¬ e.1 = p }

/-- The base names of the direct children of `p`, in entry order. -/
def FS.childrenNames (fs : FS) (p : Path) : List String :=
  fs.entries.filterMap fun e =>
    if e.1.dropLast = p ∧ e.1 ≠ [] then e.1.getLast? else none

/-- `fs::read_dir`: list the direct children of a directory. -/
def FS.readDir (fs : FS) (p : Path) : Except IOErr (List String) :=
  if p ∈ fs.denied then .error .permissionDenied
  else match fs.node p with
    | some Node.dir => .ok (fs.childrenNames p)
    | some (Node.file _) => .error .notADirectory
    | none => .error .notFound

/-- Worker for `create_dir_all`: walk the remaining components left to
right, creating each missing directory; an existing regular file on the way
is an error. -/
def mkdirFrom (fs : FS) (pre : Path) : Path → Except IOErr FS
  | [] => .ok fs
  | n :: rest =>
    match fs.node (pre ++ [n]) with
    | some Node.dir => mkdirFrom fs (pre ++ [n]) rest
    | some (Node.file _) => .error .notADirectory
    | none => mkdirFrom (fs.insert (pre ++ [n]) Node.dir) (pre ++ [n]) rest

/-- `fs::create_dir_all`: create `p` and every missing ancestor. -/
def FS.mkdirAll (fs : FS) (p : Path) : Except IOErr FS :=
  mkdirFrom fs [] p

/-- `fs::copy src dst`: full truncate-and-write copy of the source bytes to
the destination.  Fails if the source is denied, missing or a directory, if
the destination is denied or a directory, or if the destination's parent is
missing or not a directory. -/
def FS.copyOp (fs : FS) (src dst : Path) : Except IOErr FS :=
  if src ∈ fs.denied ∨ dst ∈ fs.denied then .error .permissionDenied
  else match fs.node src with
    | none => .error .notFound
    | some Node.dir => .error .isADirectory
    | some (Node.file c) =>
      match fs.node dst with
      | some Node.dir => .error .isADirectory
      | _ =>
        match fs.node dst.dropLast with
        | some Node.dir => .ok (fs.insert dst (Node.file c))
        | some (Node.file _) => .error .notADirectory
        | none => .error .notFound

/-- One stdout emission; one constructor per `print!`/`println!` of the
source. -/
inductive Ev
  | prompt (dst : Path)
  | notOverwriting (dst : Path)
  | copied (src dst : Path)
  | copiedDir (src dst : Path)
deriving DecidableEq

/-- Process state: filesystem, pending stdin lines, stdout trace. -/
structure St where
  fs : FS
  stdin : List String
  out : List Ev
deriving DecidableEq

/-- `read_line` on stdin: pop the next line; end of input yields `""`
(Rust's `read_line` returns `Ok(0)` leaving the buffer empty). -/
def readLine : List String → String × List String
  | [] => ("", [])
  | l :: ls => (l, ls)

/-- Lower-case an ASCII letter, as Rust's `eq_ignore_ascii_case` does. -/
def asciiLower (c : Char) : Char :=
  if 65 ≤ c.toNat ∧ c.toNat ≤ 90 then Char.ofNat (c.toNat + 32) else c

/-- Rust `str::eq_ignore_ascii_case`. -/
def eqIgnoreAsciiCase (a b : String) : Bool :=
  a.data.map asciiLower = b.data.map asciiLower

/-- Rust `char::is_whitespace`: the Unicode White_Space property — the
code points U+0009–U+000D (tab, LF, VT, FF, CR), U+0020 (space), U+0085
(NEL), U+00A0 (NBSP), U+1680 (Ogham space mark), U+2000–U+200A (typographic
spaces), U+2028 (line separator), U+2029 (paragraph separator), U+202F
(narrow NBSP), U+205F (medium mathematical space), and U+3000 (ideographic
space). -/
def rustIsWhitespace (c : Char) : Bool :=
  decide ((9 ≤ c.toNat ∧ c.toNat ≤ 13) ∨ c.toNat = 32 ∨ c.toNat = 133 ∨
    c.toNat = 160 ∨ c.toNat = 5760 ∨ (8192 ≤ c.toNat ∧ c.toNat ≤ 8202) ∨
    c.toNat = 8232 ∨ c.toNat = 8233 ∨ c.toNat = 8239 ∨ c.toNat = 8287 ∨
    c.toNat = 12288)

/-- Strip leading and trailing Unicode whitespace from a character list. -/
def trimChars (l : List Char) : List Char :=
  ((l.dropWhile rustIsWhitespace).reverse.dropWhile rustIsWhitespace).reverse

/-- Rust `str::trim`: the string without leading/trailing Unicode
whitespace (which includes the newline kept by `read_line`). -/
def rustTrim (s : String) : String :=
  String.mk (trimChars s.data)

/-- Parsed command-line invocation (`struct Cli` of the source), with the
two positional paths already resolved to component lists. -/
structure Cli where
  source : Path
  destination : Path
  recursive : Bool
  verbose : Bool
  interactive : Bool

/-- `copy_file` of the source: optional interactive overwrite check, then
`fs::copy`, then the optional verbose notice.  Stdin lines are stored
without their terminating newline; Rust's `answer.trim()` strips the
newline together with any other surrounding whitespace, so the comparison
is `eqIgnoreAsciiCase (rustTrim answer) "y"`. -/
def copyFile (source destination : Path) (args : Cli) (st : St) : St × Except IOErr Unit :=
  if args.interactive ∧ st.fs.pathExists destination then
    let (answer, rest) := readLine st.stdin
    let st1 : St := { st with stdin := rest, out := st.out ++ [Ev.prompt destination] }
    if eqIgnoreAsciiCase (rustTrim answer) "y" then
      match st1.fs.copyOp source destination with
      | .error e => (st1, .error e)
      | .ok fs2 =>
        let st2 : St := { st1 with fs := fs2 }
        if args.verbose then ({ st2 with out := st2.out ++ [Ev.copied source destination] }, .ok ())
        else (st2, .ok ())
    else
      ({ st1 with out := st1.out ++ [Ev.notOverwriting destination] }, .ok ())
  else
    match st.fs.copyOp source destination with
    | .error e => (st, .error e)
    | .ok fs2 =>
      let st2 : St := { st with fs := fs2 }
      if args.verbose then ({ st2 with out := st2.out ++ [Ev.copied source destination] }, .ok ())
      else (st2, .ok ())

/-- The body of `copy_directory`'s `for` loop for one directory entry `n`:
recurse (`recur`) if the entry is a directory, else `copy_file`. -/
def dirStep (args : Cli) (recur : Path → Path → St → St × Except IOErr Unit)
    (source destination : Path) (n : String) (st : St) : St × Except IOErr Unit :=
  if st.fs.isDir (source ++ [n]) then recur (source ++ [n]) (destination ++ [n]) st
  else copyFile (source ++ [n]) (destination ++ [n]) args st

/-- `copy_directory`'s `for` loop: run `step` on each listed name in order,
stopping at (and surfacing) the first error. -/
def forEntries (step : String → St → St × Except IOErr Unit) :
    List String → St → St × Except IOErr Unit
  | [], st => (st, .ok ())
  | n :: rest, st =>
    match step n st with
    | (st1, .error e) => (st1, .error e)
    | (st1, .ok _) => forEntries step rest st1

/-- `copy_directory` of the source, with explicit recursion fuel: create the
destination if it does not exist, list the source, process every entry in
order (recursing into sub-directories, copying files), then emit the
verbose per-directory notice. -/
def copyDirectory (args : Cli) : Nat → Path → Path → St → St × Except IOErr Unit
  | 0, _, _, st => (st, .error .fuelOut)
  | fuel + 1, source, destination, st =>
    match (if st.fs.pathExists destination then .ok st.fs else st.fs.mkdirAll destination :
        Except IOErr FS) with
    | .error e => (st, .error e)
    | .ok fs1 =>
      let st1 : St := { st with fs := fs1 }
      match st1.fs.readDir source with
      | .error e => (st1, .error e)
      | .ok names =>
        match forEntries
            (dirStep args (fun s d st0 => copyDirectory args fuel s d st0) source destination)
            names st1 with
        | (st2, .error e) => (st2, .error e)
        | (st2, .ok _) =>
          if args.verbose then
            ({ st2 with out := st2.out ++ [Ev.copiedDir source destination] }, .ok ())
          else (st2, .ok ())

/-- A message on the user-facing error channel: the two `eprintln!` calls of
`main`, or the runtime report of an `Err` returned from `main`. -/
inductive ErrMsg
  | sourceMissing (p : Path)
  | useRecursiveFlag
  | ioError (e : IOErr)
deriving DecidableEq

/-- Length of the longest entry path — an upper bound on the depth of the
directory forest. -/
def FS.maxLen (fs : FS) : Nat :=
  fs.entries.foldr (fun e m => max e.1.length m) 0

/-- Recursion fuel granted to the root `copy_directory` call: one more than
the deepest path in the initial filesystem (the real program's stack is
unbounded; this budget is proven sufficient whenever the source and
destination trees are disjoint). -/
def mainFuel (fs : FS) : Nat :=
  fs.maxLen + 1

/-- `main` of the source: validate the source path, dispatch to
`copy_directory` or `copy_file`, and map the outcome to the error messages
and the process exit status.  A returned `io::Result::Err` is reported by
the Rust runtime and exits with status 1. -/
def mainRun (args : Cli) (st : St) : St × List ErrMsg × Nat :=
  if ¬ st.fs.pathExists args.source then
    (st, [ErrMsg.sourceMissing args.source], 1)
  else if st.fs.isDir args.source then
    if ¬ args.recursive then (st, [ErrMsg.useRecursiveFlag], 1)
    else
      match copyDirectory args (mainFuel st.fs) args.source args.destination st with
      | (st1, .ok _) => (st1, [], 0)
      | (st1, .error e) => (st1, [ErrMsg.ioError e], 1)
  else
    match copyFile args.source args.destination args st with
    | (st1, .ok _) => (st1, [], 0)
    | (st1, .error e) => (st1, [ErrMsg.ioError e], 1)

/-! ## Property definitions used by the theorems -/

/-- Two paths are comparable: one is a prefix of the other.  The traversal
only ever writes at paths comparable with its destination root. -/
def relB (p q : Path) : Bool :=
  p.isPrefixOf q || q.isPrefixOf p

/-- The entries at paths incomparable with `d` — the part of the filesystem
a copy into `d` must leave untouched. -/
def entriesOutside (fs : FS) (d : Path) : List (Path × Node) :=
  fs.entries.filter fun e => !(relB e.1 d)

/-- The source subtree is tree-consistent: every proper extension of `src`
that is present has all its intermediate components present as
directories.  (Real filesystems satisfy this everywhere; the model states
it only where the traversal needs it.) -/
def FS.goodUnder (fs : FS) (src : Path) : Prop :=
  ∀ rel k, (fs.node (src ++ rel)).isSome → 0 < k → k < rel.length →
    fs.node (src ++ rel.take k) = some Node.dir

/-- Decidable version of `FS.goodUnder`, quantifying over the entry list. -/
def FS.goodUnderB (fs : FS) (src : Path) : Bool :=
  fs.entries.all fun e =>
    !(src.isPrefixOf e.1) ||
      (List.range e.1.length).all fun k =>
        !(decide (src.length < k)) || (fs.node (e.1.take k) == some Node.dir)

/-- No relative path that is a directory under `src` pre-exists as a
regular file under `dst`.  Without this a successful run can leave a
pre-existing destination file where the source has a directory. -/
def FS.noConflict (fs : FS) (src dst : Path) : Prop :=
  ∀ rel c, fs.node (src ++ rel) = some Node.dir → fs.node (dst ++ rel) ≠ some (Node.file c)

/-- Decidable version of `FS.noConflict`. -/
def FS.noConflictB (fs : FS) (src dst : Path) : Bool :=
  fs.entries.all fun e =>
    !(src.isPrefixOf e.1 && (fs.node e.1 == some Node.dir)) ||
      (match fs.node (dst ++ e.1.drop src.length) with
       | some (Node.file _) => false
       | _ => true)

/-- Every entry under `src` is shallower than `src.length + fuel` — the fuel
bound that makes the recursion of `copyDirectory` run to completion. -/
def heightOkB (fs : FS) (src : Path) (fuel : Nat) : Bool :=
  fs.entries.all fun e => !(src.isPrefixOf e.1) || decide (e.1.length < src.length + fuel)

/-- A state transformer writes only at paths comparable with `d` (so the
entries incomparable with `d` are untouched), keeps the denied set, and
never turns an existing directory into anything else. -/
def Writes (d : Path) (f : St → St × Except IOErr Unit) : Prop :=
  ∀ st st' r, f st = (st', r) →
    entriesOutside st'.fs d = entriesOutside st.fs d ∧
    st'.fs.denied = st.fs.denied ∧
    (∀ q, st.fs.node q = some Node.dir → st'.fs.node q = some Node.dir)

/-- A state transformer only appends to stdout, and every per-directory
notice it appends names a source path of length at least `L`. -/
def Emits (L : Nat) (f : St → St × Except IOErr Unit) : Prop :=
  ∀ st st' r, f st = (st', r) →
    ∃ Δ, st'.out = st.out ++ Δ ∧ ∀ s2 d2, Ev.copiedDir s2 d2 ∈ Δ → L ≤ s2.length

/-! ## Concrete states used by the example theorems -/

/-- Demo tree: `/a/x.txt` and `/a/sub/y.txt` (the scenario of the spec). -/
def fsDemo : FS :=
  ⟨[(["a"], Node.dir), (["a", "x"], Node.file [1, 2]),
    (["a", "s"], Node.dir), (["a", "s", "y"], Node.file [3])], []⟩

/-- Two regular files `/s` (content `[1]`) and `/d` (content `[2]`). -/
def fsTwoFiles : FS :=
  ⟨[(["s"], Node.file [1]), (["d"], Node.file [2])], []⟩

/-- An empty source directory `/s` next to a regular file `/d`. -/
def fsEmptyDirOntoFile : FS :=
  ⟨[(["s"], Node.dir), (["d"], Node.file [7])], []⟩

/-- A single empty directory `/a`. -/
def fsSelfNest : FS :=
  ⟨[(["a"], Node.dir)], []⟩

/-- A directory `/s` whose stat is permission-denied. -/
def fsDeniedSrc : FS :=
  ⟨[(["s"], Node.dir)], [["s"]]⟩

/-- A directory `/s` holding a stat-denied file `/s/x`, next to files. -/
def fsDeniedChild : FS :=
  ⟨[(["s"], Node.dir), (["s", "x"], Node.file [4]), (["s", "z"], Node.file [5])], [["s", "x"]]⟩

/-- Invocation record builder for the examples. -/
def mkArgs (src dst : Path) (r v i : Bool) : Cli :=
  ⟨src, dst, r, v, i⟩

/-- Initial state builder for the examples. -/
def stOf (fs : FS) (stdin : List String) : St :=
  ⟨fs, stdin, []⟩

/-! ## Basic association-list and filesystem lemmas -/

/-- `find?` is unaffected by filtering out elements the search predicate
rejects anyway. -/
theorem find?_filter_of_imp {α : Type} (P : α → Bool) (pred : α → Bool) :
    ∀ l : List α, (∀ e, P e = true → pred e = true) →
      (l.filter pred).find? P = l.find? P := by
  intro l himp
  induction l with
  | nil => rfl
  | cons e rest ih =>
    by_cases hP : P e = true
    · have hpred := himp e hP
      simp [List.filter_cons, hpred, List.find?, hP]
    · have hP2 : P e = false := by
        cases h2 : P e
        · rfl
        · exact absurd h2 hP
      by_cases hpr : pred e = true
      · simp [List.filter_cons, hpr, List.find?, hP2, ih]
      · have hpr2 : pred e = false := by
          cases h2 : pred e
          · rfl
          · exact absurd h2 hpr
        simp [List.filter_cons, hpr2, List.find?, hP2, ih]

/-- `filterMap` is unaffected by filtering out elements it maps to `none`. -/
theorem filterMap_filter_of_imp {α β : Type} (f : α → Option β) (pred : α → Bool) :
    ∀ l : List α, (∀ e, f e ≠ none → pred e = true) →
      (l.filter pred).filterMap f = l.filterMap f := by
  intro l himp
  induction l with
  | nil => rfl
  | cons e rest ih =>
    cases hf : f e with
    | none =>
      by_cases hpr : pred e = true
      · simp [List.filter_cons, hpr, List.filterMap_cons, hf, ih]
      · have hpr2 : pred e = false := by
          cases h2 : pred e
          · rfl
          · exact absurd h2 hpr
        simp [List.filter_cons, hpr2, List.filterMap_cons, hf, ih]
    | some b =>
      have hpred := himp e (by simp [hf])
      simp [List.filter_cons, hpred, List.filterMap_cons, hf, ih]

/-- Filtering with a weaker predicate factors through a stronger one. -/
theorem filter_filter_of_imp {α : Type} (p q : α → Bool) (l : List α)
    (himp : ∀ a, p a = true → q a = true) :
    (l.filter q).filter p = l.filter p := by
  induction l with
  | nil => rfl
  | cons e rest ih =>
    by_cases hp : p e = true
    · have hq := himp e hp
      simp [List.filter_cons, hp, hq, ih]
    · have hp2 : p e = false := by
        cases h2 : p e
        · rfl
        · exact absurd h2 hp
      by_cases hq : q e = true
      · simp [List.filter_cons, hp2, hq, ih]
      · have hq2 : q e = false := by
          cases h2 : q e
          · rfl
          · exact absurd h2 hq
        simp [List.filter_cons, hp2, hq2, ih]

theorem FS.lookup_insert_self (fs : FS) (p : Path) (n : Node) :
    (fs.insert p n).lookup p = some n := by
  simp [FS.insert, FS.lookup, List.find?]

theorem FS.node_insert_self (fs : FS) (p : Path) (n : Node) (hp : p ≠ []) :
    (fs.insert p n).node p = some n := by
  simp [FS.node, hp, FS.lookup_insert_self]

theorem FS.lookup_insert_ne (fs : FS) (p : Path) (n : Node) (q : Path) (hq : q ≠ p) :
    (fs.insert p n).lookup q = fs.lookup q := by
  unfold FS.lookup FS.insert
  have h1 : (fun e : Path × Node => decide (e.1 = q)) (p, n) = false := by
    simp
    exact fun h => hq h.symm
  simp only [List.find?]
  rw [show (decide ((p, n).1 = q)) = false from h1]
  rw [find?_filter_of_imp _ _ fs.entries]
  intro e he
  simp at he ⊢
  rw [he]
  exact hq

theorem FS.node_insert_ne (fs : FS) (p : Path) (n : Node) (q : Path) (hq : q ≠ p) :
    (fs.insert p n).node q = fs.node q := by
  unfold FS.node
  by_cases h : q = []
  · simp [h]
  · simp [h, FS.lookup_insert_ne fs p n q hq]

theorem FS.denied_insert (fs : FS) (p : Path) (n : Node) :
    (fs.insert p n).denied = fs.denied := rfl

/-- Characterisation of a successful `fs::copy`. -/
theorem FS.copyOp_ok (fs : FS) (src dst : Path) (fs2 : FS)
    (h : fs.copyOp src dst = .ok fs2) :
    ∃ c, fs.node src = some (.file c) ∧ fs2 = fs.insert dst (.file c) ∧ dst ≠ [] ∧
      src ∉ fs.denied ∧ fs.node dst ≠ some .dir ∧ fs.node dst.dropLast = some .dir := by
  unfold FS.copyOp at h
  by_cases hden : src ∈ fs.denied ∨ dst ∈ fs.denied
  · rw [if_pos hden] at h
    exact absurd h (by simp)
  · rw [if_neg hden] at h
    push_neg at hden
    cases hsrc : fs.node src with
    | none =>
      rw [hsrc] at h
      exact absurd h (by simp)
    | some nsrc =>
      cases nsrc with
      | dir =>
        rw [hsrc] at h
        exact absurd h (by simp)
      | file c =>
        rw [hsrc] at h
        cases hdst : fs.node dst with
        | some ndst =>
          cases ndst with
          | dir =>
            rw [hdst] at h
            exact absurd h (by simp)
          | file cd =>
            rw [hdst] at h
            simp only [] at h
            cases hpar : fs.node dst.dropLast with
            | none =>
              rw [hpar] at h
              exact absurd h (by simp)
            | some npar =>
              cases npar with
              | dir =>
                rw [hpar] at h
                simp only [Except.ok.injEq] at h
                refine ⟨c, rfl, h.symm, ?_, hden.1, by simp, rfl⟩
                intro hnil
                rw [hnil] at hdst
                simp [FS.node] at hdst
              | file cp =>
                rw [hpar] at h
                exact absurd h (by simp)
        | none =>
          rw [hdst] at h
          simp only [] at h
          cases hpar : fs.node dst.dropLast with
          | none =>
            rw [hpar] at h
            exact absurd h (by simp)
          | some npar =>
            cases npar with
            | dir =>
              rw [hpar] at h
              simp only [Except.ok.injEq] at h
              refine ⟨c, rfl, h.symm, ?_, hden.1, by simp, rfl⟩
              intro hnil
              rw [hnil] at hdst
              simp [FS.node] at hdst
            | file cp =>
              rw [hpar] at h
              exact absurd h (by simp)

/-- A successful `fs::copy` leaves the destination holding exactly the
source bytes. -/
theorem FS.copyOp_ok_node (fs : FS) (src dst : Path) (fs2 : FS) (c : Bytes)
    (h : fs.copyOp src dst = .ok fs2) (hsrc : fs.node src = some (.file c)) :
    fs2.node dst = some (.file c) := by
  obtain ⟨c2, hsrc2, hfs2, hnil, -⟩ := FS.copyOp_ok fs src dst fs2 h
  rw [hsrc] at hsrc2
  cases hsrc2
  rw [hfs2]
  exact FS.node_insert_self fs dst _ hnil

/-- A failed `fs::copy` changes nothing (the model keeps the state on
error). -/
theorem FS.copyOp_frame (fs : FS) (src dst : Path) (fs2 : FS) (q : Path)
    (h : fs.copyOp src dst = .ok fs2) (hq : q ≠ dst) :
    fs2.node q = fs.node q := by
  obtain ⟨c, -, hfs2, -⟩ := FS.copyOp_ok fs src dst fs2 h
  rw [hfs2]
  exact FS.node_insert_ne fs dst _ q hq

/-! ## `copy_file` unfolding lemmas -/

/-- When the interactive check does not fire (flag off or destination
absent), `copy_file` goes straight to `fs::copy`. -/
theorem copyFile_skip_check (source destination : Path) (args : Cli) (st : St)
    (h : args.interactive = false ∨ st.fs.pathExists destination = false) :
    copyFile source destination args st =
      (match st.fs.copyOp source destination with
       | .error e => (st, .error e)
       | .ok fs2 =>
         if args.verbose
         then ({ st with fs := fs2, out := st.out ++ [Ev.copied source destination] }, .ok ())
         else ({ st with fs := fs2 }, .ok ())) := by
  unfold copyFile
  have hc : ¬ (args.interactive = true ∧ st.fs.pathExists destination = true) := by
    rcases h with h | h
    · intro hx
      rw [h] at hx
      exact Bool.false_ne_true hx.1
    · intro hx
      rw [h] at hx
      exact Bool.false_ne_true hx.2
  rw [if_neg hc]

/-- When the interactive check fires and the answer trims to `y` (ASCII
case-insensitively), `copy_file` consumes the line, prints the prompt and
proceeds to `fs::copy`. -/
theorem copyFile_confirm_eq (source destination : Path) (args : Cli) (st : St)
    (line : String) (rest : List String)
    (hi : args.interactive = true) (hex : st.fs.pathExists destination = true)
    (hin : st.stdin = line :: rest) (hy : eqIgnoreAsciiCase (rustTrim line) "y" = true) :
    copyFile source destination args st =
      (match st.fs.copyOp source destination with
       | .error e =>
         ({ st with stdin := rest, out := st.out ++ [Ev.prompt destination] }, .error e)
       | .ok fs2 =>
         if args.verbose
         then ({ st with fs := fs2, stdin := rest, out := (st.out ++ [Ev.prompt destination]) ++ [Ev.copied source destination] }, .ok ())
         else ({ st with fs := fs2, stdin := rest, out := st.out ++ [Ev.prompt destination] }, .ok ())) := by
  unfold copyFile
  rw [if_pos ⟨hi, hex⟩, hin]
  show (if eqIgnoreAsciiCase (rustTrim line) "y" then _ else _) = _
  rw [if_pos (by exact hy)]

/-- When the interactive check fires and the answer does not trim to `y`,
`copy_file` prints the prompt and the "not overwriting" notice, copies
nothing, and returns success. -/
theorem copyFile_decline_eq (source destination : Path) (args : Cli) (st : St)
    (line : String) (rest : List String)
    (hi : args.interactive = true) (hex : st.fs.pathExists destination = true)
    (hin : st.stdin = line :: rest) (hd : eqIgnoreAsciiCase (rustTrim line) "y" = false) :
    copyFile source destination args st =
      ({ st with stdin := rest, out := (st.out ++ [Ev.prompt destination]) ++ [Ev.notOverwriting destination] }, .ok ()) := by
  unfold copyFile
  rw [if_pos ⟨hi, hex⟩, hin]
  show (if eqIgnoreAsciiCase (rustTrim line) "y" then _ else _) = _
  rw [if_neg (by rw [hd]; exact Bool.false_ne_true)]

/-! ## Claim theorems: single-file copy -/

/-- C2: when the single-file copy proceeds past the interactive check
(interactive off, destination absent, or overwrite confirmed), a successful
run leaves the destination holding exactly the source bytes — whatever the
destination held before — and a failing `fs::copy` surfaces its error to
the caller unchanged. -/
theorem copyFile_pass_semantics (source destination : Path) (args : Cli) (st : St)
    (hpass : args.interactive = false ∨ st.fs.pathExists destination = false ∨
      eqIgnoreAsciiCase (rustTrim (readLine st.stdin).1) "y" = true) :
    (∀ e, st.fs.copyOp source destination = .error e →
      (copyFile source destination args st).2 = .error e) ∧
    (∀ fs2 c, st.fs.copyOp source destination = .ok fs2 →
      st.fs.node source = some (Node.file c) →
      (copyFile source destination args st).2 = .ok () ∧
      (copyFile source destination args st).1.fs.node destination = some (Node.file c)) := by
  by_cases hskip : args.interactive = false ∨ st.fs.pathExists destination = false
  · rw [copyFile_skip_check source destination args st hskip]
    constructor
    · intro e he
      rw [he]
    · intro fs2 c hok hsrc
      rw [hok]
      have hnode := FS.copyOp_ok_node st.fs source destination fs2 c hok hsrc
      cases hv : args.verbose <;> simp [hv, hnode]
  · push_neg at hskip
    have hi : args.interactive = true := by
      cases h : args.interactive
      · exact absurd h hskip.1
      · rfl
    have hex : st.fs.pathExists destination = true := by
      cases h : st.fs.pathExists destination
      · exact absurd h hskip.2
      · rfl
    have hy : eqIgnoreAsciiCase (rustTrim (readLine st.stdin).1) "y" = true := by
      rcases hpass with h | h | h
      · exact absurd h (by simp [hi])
      · exact absurd h (by simp [hex])
      · exact h
    cases hst : st.stdin with
    | nil =>
      rw [hst] at hy
      exact absurd hy (by decide)
    | cons line rest =>
      have hy2 : eqIgnoreAsciiCase (rustTrim line) "y" = true := by
        rw [hst] at hy
        exact hy
      rw [copyFile_confirm_eq source destination args st line rest hi hex hst hy2]
      constructor
      · intro e he
        rw [he]
      · intro fs2 c hok hsrc
        rw [hok]
        have hnode := FS.copyOp_ok_node st.fs source destination fs2 c hok hsrc
        cases hv : args.verbose <;> simp [hv, hnode]

/-- C2 witness: a plain non-interactive copy of `/s` (bytes `[1]`) over
`/d` (bytes `[2]`) succeeds and leaves `/d` holding `[1]`. -/
theorem copyFile_pass_semantics_witness :
    (copyFile ["s"] ["d"] (mkArgs ["s"] ["d"] false false false) (stOf fsTwoFiles [])).2 = .ok () ∧
    (copyFile ["s"] ["d"] (mkArgs ["s"] ["d"] false false false) (stOf fsTwoFiles [])).1.fs.node ["d"] = some (Node.file [1]) :=
  (copyFile_pass_semantics ["s"] ["d"] (mkArgs ["s"] ["d"] false false false)
      (stOf fsTwoFiles []) (Or.inl rfl)).2
    (fsTwoFiles.insert ["d"] (Node.file [1])) [1] (by rfl) (by rfl)

/-- C3 counterexample: the claim says the read line is compared
case-insensitively to "y" and ANY other input declines; but the code trims
the line first, so the line `" y"` — not case-insensitively equal to "y" —
is accepted: the bytes are copied (the destination becomes `[1]`), no
"not overwriting" notice appears, and the destination's prior content `[2]`
is destroyed. -/
theorem copyFile_whitespace_line_cex :
    eqIgnoreAsciiCase " y" "y" = false ∧
    (copyFile ["s"] ["d"] (mkArgs ["s"] ["d"] false false true) (stOf fsTwoFiles [" y"])).1.fs.node ["d"] = some (Node.file [1]) ∧
    (copyFile ["s"] ["d"] (mkArgs ["s"] ["d"] false false true) (stOf fsTwoFiles [" y"])).2 = .ok () ∧
    Ev.notOverwriting ["d"] ∉ (copyFile ["s"] ["d"] (mkArgs ["s"] ["d"] false false true) (stOf fsTwoFiles [" y"])).1.out := by
  refine ⟨by decide, by decide, by rfl, by decide⟩

/-- C3 (amended): with the interactive flag set and an existing
destination, `copy_file` emits a prompt naming the destination and reads
one line; the line is TRIMMED of surrounding whitespace and then compared
ASCII-case-insensitively with "y"; any line not trimming to y/Y (including
empty) declines: a "not overwriting" notice is emitted, no bytes are
copied, the whole filesystem — in particular the destination — is left
unchanged, and the call returns success. -/
theorem copyFile_interactive_decline (source destination : Path) (args : Cli) (st : St)
    (line : String) (rest : List String)
    (hi : args.interactive = true) (hex : st.fs.pathExists destination = true)
    (hin : st.stdin = line :: rest)
    (hd : eqIgnoreAsciiCase (rustTrim line) "y" = false) :
    copyFile source destination args st =
      ({ st with stdin := rest, out := (st.out ++ [Ev.prompt destination]) ++ [Ev.notOverwriting destination] }, .ok ()) :=
  copyFile_decline_eq source destination args st line rest hi hex hin hd

/-- C3 witness: declining with `"n"` leaves the filesystem untouched and
returns success after prompting. -/
theorem copyFile_interactive_decline_witness :
    (copyFile ["s"] ["d"] (mkArgs ["s"] ["d"] false false true) (stOf fsTwoFiles ["n"])).1.fs = fsTwoFiles ∧
    (copyFile ["s"] ["d"] (mkArgs ["s"] ["d"] false false true) (stOf fsTwoFiles ["n"])).2 = .ok () := by
  have h := copyFile_interactive_decline ["s"] ["d"] (mkArgs ["s"] ["d"] false false true)
    (stOf fsTwoFiles ["n"]) "n" [] rfl (by decide) rfl (by decide)
  rw [h]
  exact ⟨rfl, rfl⟩

/-! ## Claim theorems: command driver -/

/-- C5: an existing directory source without the recursive flag is rejected
with the "use recursive flag" error, no filesystem mutation, and exit
status 1. -/
theorem main_dir_without_recursive (args : Cli) (st : St)
    (hex : st.fs.pathExists args.source = true) (hdir : st.fs.isDir args.source = true)
    (hrec : args.recursive = false) :
    mainRun args st = (st, [ErrMsg.useRecursiveFlag], 1) := by
  unfold mainRun
  simp [hex, hdir, hrec]

/-- C5 witness: `/s` is a directory; without `-r` the run changes nothing
and exits 1. -/
theorem main_dir_without_recursive_witness :
    mainRun (mkArgs ["s"] ["d"] false false false) (stOf fsEmptyDirOntoFile []) =
      (stOf fsEmptyDirOntoFile [], [ErrMsg.useRecursiveFlag], 1) :=
  main_dir_without_recursive (mkArgs ["s"] ["d"] false false false)
    (stOf fsEmptyDirOntoFile []) (by decide) (by decide) rfl

/-- C6: a missing source is reported (naming the source) with no mutation
and exit 1; and the exit status is 0 exactly on success: 1 for missing
source, directory-without-recursive-flag, and any I/O failure surfaced
from the dispatched copy operation. -/
theorem main_exit_codes (args : Cli) (st : St) :
    (st.fs.pathExists args.source = false →
      mainRun args st = (st, [ErrMsg.sourceMissing args.source], 1)) ∧
    (st.fs.pathExists args.source = true → st.fs.isDir args.source = true →
      args.recursive = false →
      mainRun args st = (st, [ErrMsg.useRecursiveFlag], 1)) ∧
    (∀ st1 e, st.fs.pathExists args.source = true → st.fs.isDir args.source = true →
      args.recursive = true →
      copyDirectory args (mainFuel st.fs) args.source args.destination st = (st1, .error e) →
      mainRun args st = (st1, [ErrMsg.ioError e], 1)) ∧
    (∀ st1 e, st.fs.pathExists args.source = true → st.fs.isDir args.source = false →
      copyFile args.source args.destination args st = (st1, .error e) →
      mainRun args st = (st1, [ErrMsg.ioError e], 1)) ∧
    (∀ st1, st.fs.pathExists args.source = true → st.fs.isDir args.source = true →
      args.recursive = true →
      copyDirectory args (mainFuel st.fs) args.source args.destination st = (st1, .ok ()) →
      mainRun args st = (st1, [], 0)) ∧
    (∀ st1, st.fs.pathExists args.source = true → st.fs.isDir args.source = false →
      copyFile args.source args.destination args st = (st1, .ok ()) →
      mainRun args st = (st1, [], 0)) := by
  refine ⟨?_, ?_, ?_, ?_, ?_, ?_⟩
  · intro hmiss
    unfold mainRun
    simp [hmiss]
  · intro hex hdir hrec
    unfold mainRun
    simp [hex, hdir, hrec]
  · intro st1 e hex hdir hrec hcd
    unfold mainRun
    simp only [hex, hdir, hrec]
    rw [hcd]
    simp
  · intro st1 e hex hdir hcf
    unfold mainRun
    simp only [hex, hdir]
    rw [hcf]
    simp
  · intro st1 hex hdir hrec hcd
    unfold mainRun
    simp only [hex, hdir, hrec]
    rw [hcd]
    simp
  · intro st1 hex hdir hcf
    unfold mainRun
    simp only [hex, hdir]
    rw [hcf]
    simp

/-- C6 witness: invoking with the nonexistent source `/x` reports it and
exits 1, touching nothing. -/
theorem main_exit_codes_witness :
    mainRun (mkArgs ["x"] ["d"] false false false) (stOf fsTwoFiles []) =
      (stOf fsTwoFiles [], [ErrMsg.sourceMissing ["x"]], 1) :=
  (main_exit_codes (mkArgs ["x"] ["d"] false false false) (stOf fsTwoFiles [])).1 (by decide)

/-- C7 counterexample: the claim says a permission-denied stat propagates
as a distinct error and is never reported as does-not-exist; but on a
source whose stat is permission-denied the program prints the
missing-source report (because `Path::exists` returns `false` on any stat
error) and exits 1. -/
theorem main_denied_source_cex :
    fsDeniedSrc.metadata ["s"] = .error .permissionDenied ∧
    fsDeniedSrc.node ["s"] = some Node.dir ∧
    mainRun (mkArgs ["s"] ["d"] true false false) (stOf fsDeniedSrc []) =
      (stOf fsDeniedSrc [], [ErrMsg.sourceMissing ["s"]], 1) := by
  refine ⟨by rfl, by rfl, by rfl⟩

/-- C7 (amended): a permission-denied stat on the source is NOT propagated
distinctly: `Path::exists` treats every stat error as nonexistence, so a
permission-denied source is diagnosed as a missing source — the
missing-source report and exit status 1. -/
theorem main_denied_source_reported_missing (args : Cli) (st : St)
    (h : st.fs.metadata args.source = .error .permissionDenied) :
    mainRun args st = (st, [ErrMsg.sourceMissing args.source], 1) := by
  have hex : st.fs.pathExists args.source = false := by
    unfold FS.pathExists
    rw [h]
  unfold mainRun
  simp [hex]

/-- C7 witness: the stat-denied directory `/s` is reported as missing. -/
theorem main_denied_source_reported_missing_witness :
    mainRun (mkArgs ["s"] ["d"] false false false) (stOf fsDeniedSrc []) =
      (stOf fsDeniedSrc [], [ErrMsg.sourceMissing ["s"]], 1) :=
  main_denied_source_reported_missing (mkArgs ["s"] ["d"] false false false)
    (stOf fsDeniedSrc []) (by rfl)

/-! ## Claim theorems: traversal control flow -/

/-- C9: a user decline is a SUCCESS of `copy_file` (filesystem unchanged),
a successful step lets the entry loop continue with the remaining
siblings, and a traversal that ends in success exits with status 0. -/
theorem decline_continues_traversal (args : Cli) :
    (∀ source destination st line rest, args.interactive = true →
      st.fs.pathExists destination = true → st.stdin = line :: rest →
      eqIgnoreAsciiCase (rustTrim line) "y" = false →
      copyFile source destination args st =
        ({ st with stdin := rest, out := (st.out ++ [Ev.prompt destination]) ++ [Ev.notOverwriting destination] }, .ok ())) ∧
    (∀ (step : String → St → St × Except IOErr Unit) n rest st0 st1,
      step n st0 = (st1, .ok ()) →
      forEntries step (n :: rest) st0 = forEntries step rest st1) ∧
    (∀ st st1, st.fs.pathExists args.source = true → st.fs.isDir args.source = true →
      args.recursive = true →
      copyDirectory args (mainFuel st.fs) args.source args.destination st = (st1, .ok ()) →
      mainRun args st = (st1, [], 0)) := by
  refine ⟨?_, ?_, ?_⟩
  · intro source destination st line rest hi hex hin hd
    exact copyFile_decline_eq source destination args st line rest hi hex hin hd
  · intro step n rest st0 st1 hstep
    have hunf : forEntries step (n :: rest) st0 =
        (match step n st0 with
         | (st1, .error e) => (st1, .error e)
         | (st1, .ok _) => forEntries step rest st1) := rfl
    rw [hunf, hstep]
  · intro st st1 hex hdir hrec hcd
    unfold mainRun
    simp only [hex, hdir, hrec]
    rw [hcd]
    simp

/-- C9 witness: a step that succeeds lets the loop move on to the
remaining entries. -/
theorem decline_continues_traversal_witness :
    forEntries (fun _ st0 => (st0, Except.ok ())) ["a", "b"] (stOf fsDemo []) =
      forEntries (fun _ st0 => (st0, Except.ok ())) ["b"] (stOf fsDemo []) :=
  (decline_continues_traversal (mkArgs [] [] false false false)).2.1
    (fun _ st0 => (st0, Except.ok ())) "a" ["b"] (stOf fsDemo []) (stOf fsDemo []) rfl

/-- C4: the first failing child aborts the loop — the error is returned
as-is (no retry), the remaining siblings are not processed, and the state
already produced (files copied before the failure) is returned unchanged
(no rollback); a failing directory creation or listing aborts the
directory; and a failed traversal makes the invocation exit with status
1. -/
theorem traversal_error_aborts (args : Cli) :
    (∀ (step : String → St → St × Except IOErr Unit) n rest st0 st1 e,
      step n st0 = (st1, .error e) →
      forEntries step (n :: rest) st0 = (st1, .error e)) ∧
    (∀ fuel source destination st e, st.fs.pathExists destination = false →
      st.fs.mkdirAll destination = .error e →
      copyDirectory args (fuel + 1) source destination st = (st, .error e)) ∧
    (∀ fuel source destination st e, st.fs.pathExists destination = true →
      st.fs.readDir source = .error e →
      copyDirectory args (fuel + 1) source destination st = (st, .error e)) ∧
    (∀ fuel source destination st fs1 names st2 e,
      (if st.fs.pathExists destination then Except.ok st.fs else st.fs.mkdirAll destination) = .ok fs1 →
      FS.readDir fs1 source = .ok names →
      forEntries (dirStep args (fun s d st0 => copyDirectory args fuel s d st0) source destination) names { st with fs := fs1 } = (st2, .error e) →
      copyDirectory args (fuel + 1) source destination st = (st2, .error e)) ∧
    (∀ st st1 e, st.fs.pathExists args.source = true → st.fs.isDir args.source = true →
      args.recursive = true →
      copyDirectory args (mainFuel st.fs) args.source args.destination st = (st1, .error e) →
      mainRun args st = (st1, [ErrMsg.ioError e], 1)) := by
  refine ⟨?_, ?_, ?_, ?_, ?_⟩
  · intro step n rest st0 st1 e hstep
    have hunf : forEntries step (n :: rest) st0 =
        (match step n st0 with
         | (st1, .error e) => (st1, .error e)
         | (st1, .ok _) => forEntries step rest st1) := rfl
    rw [hunf, hstep]
  · intro fuel source destination st e hex hmk
    unfold copyDirectory
    simp only [hex, Bool.false_eq_true, if_false]
    rw [hmk]
  · intro fuel source destination st e hex hrd
    unfold copyDirectory
    simp only [hex, if_true]
    rw [hrd]
  · intro fuel source destination st fs1 names st2 e hfs1 hrd hloop
    unfold copyDirectory
    rw [hfs1]
    dsimp only
    rw [hrd]
    dsimp only
    rw [hloop]
  · intro st st1 e hex hdir hrec hcd
    unfold mainRun
    simp only [hex, hdir, hrec]
    rw [hcd]
    simp

/-- C4 witness: a failing first entry aborts the loop immediately with its
error and state. -/
theorem traversal_error_aborts_witness :
    forEntries (fun _ st0 => (st0, Except.error IOErr.notFound)) ["a", "b"] (stOf fsDemo []) =
      (stOf fsDemo [], Except.error IOErr.notFound) :=
  (traversal_error_aborts (mkArgs [] [] false false false)).1
    (fun _ st0 => (st0, Except.error IOErr.notFound)) "a" ["b"] (stOf fsDemo [])
    (stOf fsDemo []) IOErr.notFound rfl

/-! ## Path comparability lemmas -/

theorem prefix_snoc_iff {q d : Path} {m : String} :
    q <+: d ++ [m] ↔ q <+: d ∨ q = d ++ [m] := by
  constructor
  · intro h
    rcases le_or_lt q.length d.length with hle | hlt
    · exact Or.inl (List.prefix_of_prefix_length_le h (List.prefix_append d [m]) hle)
    · right
      have hlen : q.length = (d ++ [m]).length := by
        have := h.length_le
        simp only [List.length_append, List.length_singleton] at this ⊢
        omega
      exact List.IsPrefix.eq_of_length h hlen
  · intro h
    rcases h with h | h
    · exact h.trans (List.prefix_append d [m])
    · rw [h]

theorem relB_eq_false_iff {p q : Path} :
    relB p q = false ↔ ¬ p <+: q ∧ ¬ q <+: p := by
  unfold relB
  rw [Bool.or_eq_false_iff]
  constructor
  · intro h
    constructor
    · intro hc
      rw [(List.isPrefixOf_iff_prefix).mpr hc] at h
      exact Bool.noConfusion h.1
    · intro hc
      rw [(List.isPrefixOf_iff_prefix).mpr hc] at h
      exact Bool.noConfusion h.2
  · intro h
    constructor
    · cases hb : List.isPrefixOf p q
      · rfl
      · exact absurd (List.isPrefixOf_iff_prefix.mp hb) h.1
    · cases hb : List.isPrefixOf q p
      · rfl
      · exact absurd (List.isPrefixOf_iff_prefix.mp hb) h.2

theorem relB_eq_true_iff {p q : Path} :
    relB p q = true ↔ p <+: q ∨ q <+: p := by
  unfold relB
  rw [Bool.or_eq_true_iff, List.isPrefixOf_iff_prefix, List.isPrefixOf_iff_prefix]

theorem relB_self (d : Path) : relB d d = true :=
  relB_eq_true_iff.mpr (Or.inl (List.prefix_refl d))

theorem relB_of_prefix {q d : Path} (h : q <+: d) : relB q d = true :=
  relB_eq_true_iff.mpr (Or.inl h)

theorem relB_of_prefix_right {q d : Path} (h : d <+: q) : relB q d = true :=
  relB_eq_true_iff.mpr (Or.inr h)

/-- Incomparability with `d` extends to `d`'s children. -/
theorem relB_snoc_false {q d : Path} {m : String} (h : relB q d = false) :
    relB q (d ++ [m]) = false := by
  rw [relB_eq_false_iff] at h ⊢
  obtain ⟨h1, h2⟩ := h
  constructor
  · intro hc
    rcases prefix_snoc_iff.mp hc with hc | hc
    · exact h1 hc
    · exact h2 (hc ▸ List.prefix_append d [m])
  · intro hc
    exact h2 ((List.prefix_append d [m]).trans hc)

/-- Anything inside the source subtree is incomparable with the
destination when the two roots are. -/
theorem relB_sub_false {src dst p : Path} (h : relB src dst = false)
    (hp : src <+: p) : relB p dst = false := by
  rw [relB_eq_false_iff] at h ⊢
  obtain ⟨h1, h2⟩ := h
  constructor
  · intro hc
    exact h1 (hp.trans hc)
  · intro hc
    rcases le_or_lt dst.length src.length with hle | hlt
    · exact h2 (List.prefix_of_prefix_length_le hc hp hle)
    · exact h1 (List.prefix_of_prefix_length_le hp hc (Nat.le_of_lt hlt))

theorem relB_sub_snoc_false {src dst p : Path} {n : String} (h : relB src dst = false)
    (hp : src <+: p) : relB p (dst ++ [n]) = false :=
  relB_snoc_false (relB_sub_false h hp)

/-- Incomparability of the roots descends to the paired children. -/
theorem relB_child_false {src dst : Path} (n : String) (h : relB src dst = false) :
    relB (src ++ [n]) (dst ++ [n]) = false := by
  rw [relB_eq_false_iff] at h ⊢
  obtain ⟨h1, h2⟩ := h
  constructor
  · intro hc
    rcases prefix_snoc_iff.mp hc with hc | hc
    · exact h1 ((List.prefix_append src [n]).trans hc)
    · have : src = dst := by
        have := congrArg List.dropLast hc
        simpa [List.dropLast_concat] using this
      exact h1 (this ▸ List.prefix_refl src)
  · intro hc
    rcases prefix_snoc_iff.mp hc with hc | hc
    · exact h2 ((List.prefix_append dst [n]).trans hc)
    · have : dst = src := by
        have := congrArg List.dropLast hc
        simpa [List.dropLast_concat] using this
      exact h1 (this ▸ List.prefix_refl dst)

/-- The root `[]` is comparable with everything, so an incomparable pair
has a nonempty source. -/
theorem ne_nil_of_relB_false {src dst : Path} (h : relB src dst = false) : src ≠ [] := by
  intro hc
  rw [relB_eq_false_iff] at h
  exact h.1 (hc ▸ (List.nil_prefix : ([] : Path) <+: dst))

/-! ## Frame lemmas: what each primitive leaves untouched -/

/-- Inserting at a path comparable with `d` does not change the entries
incomparable with `d`. -/
theorem entriesOutside_insert (fs : FS) (p : Path) (n : Node) (d : Path)
    (h : relB p d = true) :
    entriesOutside (fs.insert p n) d = entriesOutside fs d := by
  unfold entriesOutside FS.insert
  simp only [List.filter_cons]
  have hcond : (!(relB ((p, n) : Path × Node).1 d)) = false := by simp [h]
  rw [hcond]
  simp only [Bool.false_eq_true, if_false]
  exact filter_filter_of_imp _ _ fs.entries fun a ha => by
    by_cases hc : a.1 = p
    · rw [hc, h] at ha
      exact absurd ha (by simp)
    · simpa using hc

/-- Equal outside-entries means equal nodes at incomparable paths. -/
theorem node_eq_of_outside {fs fs2 : FS} {d : Path}
    (he : entriesOutside fs2 d = entriesOutside fs d) (q : Path)
    (hq : relB q d = false) :
    fs2.node q = fs.node q := by
  unfold FS.node
  by_cases h0 : q = []
  · simp [h0]
  · simp only [h0, if_false]
    unfold FS.lookup
    have himp : ∀ e : Path × Node, (decide (e.1 = q)) = true → (!(relB e.1 d)) = true := by
      intro e he2
      have h3 : e.1 = q := of_decide_eq_true he2
      rw [h3, hq]
      rfl
    rw [← find?_filter_of_imp _ _ fs2.entries himp, ← find?_filter_of_imp _ _ fs.entries himp]
    show ((entriesOutside fs2 d).find? _).map Prod.snd = ((entriesOutside fs d).find? _).map Prod.snd
    rw [he]

/-- Equal outside-entries means equal child listings at directories whose
children are all incomparable with `d`. -/
theorem childrenNames_eq_of_outside {fs fs2 : FS} {d : Path}
    (he : entriesOutside fs2 d = entriesOutside fs d) (q : Path)
    (hq : ∀ m, relB (q ++ [m]) d = false) :
    fs2.childrenNames q = fs.childrenNames q := by
  unfold FS.childrenNames
  have himp : ∀ e : Path × Node,
      (if e.1.dropLast = q ∧ e.1 ≠ [] then e.1.getLast? else none) ≠ none →
      (!(relB e.1 d)) = true := by
    intro e he2
    by_cases hc : e.1.dropLast = q ∧ e.1 ≠ []
    · obtain ⟨hd1, hd2⟩ := hc
      have h3 : e.1 = q ++ [e.1.getLast hd2] := by
        conv_lhs => rw [← List.dropLast_append_getLast hd2]
        rw [hd1]
      rw [h3, hq]
      rfl
    · rw [if_neg hc] at he2
      exact absurd rfl he2
  rw [← filterMap_filter_of_imp _ _ fs2.entries himp, ← filterMap_filter_of_imp _ _ fs.entries himp]
  show (entriesOutside fs2 d).filterMap _ = (entriesOutside fs d).filterMap _
  rw [he]

theorem metadata_eq_of_outside {fs fs2 : FS} {d : Path}
    (he : entriesOutside fs2 d = entriesOutside fs d) (hden : fs2.denied = fs.denied)
    (q : Path) (hq : relB q d = false) :
    fs2.metadata q = fs.metadata q := by
  unfold FS.metadata
  rw [hden, node_eq_of_outside he q hq]

theorem pathExists_eq_of_outside {fs fs2 : FS} {d : Path}
    (he : entriesOutside fs2 d = entriesOutside fs d) (hden : fs2.denied = fs.denied)
    (q : Path) (hq : relB q d = false) :
    fs2.pathExists q = fs.pathExists q := by
  unfold FS.pathExists
  rw [metadata_eq_of_outside he hden q hq]

theorem isDir_eq_of_outside {fs fs2 : FS} {d : Path}
    (he : entriesOutside fs2 d = entriesOutside fs d) (hden : fs2.denied = fs.denied)
    (q : Path) (hq : relB q d = false) :
    fs2.isDir q = fs.isDir q := by
  unfold FS.isDir
  rw [metadata_eq_of_outside he hden q hq]

/-! ## `create_dir_all` lemmas -/

/-- A successful `mkdirFrom` ends with the full path present as a
directory. -/
theorem mkdirFrom_ok_dir : ∀ (rest pre : Path) (fs fs2 : FS),
    fs.node pre = some Node.dir → mkdirFrom fs pre rest = .ok fs2 →
    fs2.node (pre ++ rest) = some Node.dir := by
  intro rest
  induction rest with
  | nil =>
    intro pre fs fs2 hdir h
    simp only [mkdirFrom, Except.ok.injEq] at h
    rw [← h]
    simpa using hdir
  | cons n rest ih =>
    intro pre fs fs2 hdir h
    rw [show pre ++ n :: rest = (pre ++ [n]) ++ rest by simp]
    unfold mkdirFrom at h
    cases hn : fs.node (pre ++ [n]) with
    | some nd =>
      cases nd with
      | dir =>
        rw [hn] at h
        exact ih (pre ++ [n]) fs fs2 hn h
      | file c =>
        rw [hn] at h
        exact absurd h (by simp)
    | none =>
      rw [hn] at h
      exact ih (pre ++ [n]) _ fs2 (FS.node_insert_self fs _ Node.dir (by simp)) h

/-- Everything `mkdirFrom` changes was absent, becomes a directory, and
lies strictly between `pre` and `pre ++ rest`. -/
theorem mkdirFrom_changes : ∀ (rest pre : Path) (fs fs2 : FS),
    mkdirFrom fs pre rest = .ok fs2 →
    ∀ q, fs2.node q ≠ fs.node q →
      fs.node q = none ∧ fs2.node q = some Node.dir ∧ pre <+: q ∧ q ≠ pre ∧
        q <+: pre ++ rest := by
  intro rest
  induction rest with
  | nil =>
    intro pre fs fs2 h q hq
    simp only [mkdirFrom, Except.ok.injEq] at h
    rw [h] at hq
    exact absurd rfl hq
  | cons n rest ih =>
    intro pre fs fs2 h q hq
    unfold mkdirFrom at h
    cases hn : fs.node (pre ++ [n]) with
    | some nd =>
      cases nd with
      | dir =>
        rw [hn] at h
        obtain ⟨h1, h2, h3, h4, h5⟩ := ih (pre ++ [n]) fs fs2 h q hq
        refine ⟨h1, h2, (List.prefix_append pre [n]).trans h3, ?_, by simpa using h5⟩
        intro hc
        rw [hc] at h3
        have := h3.length_le
        simp at this
      | file c =>
        rw [hn] at h
        exact absurd h (by simp)
    | none =>
      rw [hn] at h
      by_cases hqe : q = pre ++ [n]
      · have hinsq : (fs.insert (pre ++ [n]) Node.dir).node q = some Node.dir := by
          rw [hqe]
          exact FS.node_insert_self _ _ _ (by simp)
        have hkeep : fs2.node q = (fs.insert (pre ++ [n]) Node.dir).node q := by
          by_cases hch : fs2.node q = (fs.insert (pre ++ [n]) Node.dir).node q
          · exact hch
          · obtain ⟨-, -, -, h4, -⟩ := ih (pre ++ [n]) _ fs2 h q hch
            exact absurd hqe h4
        refine ⟨by rw [hqe]; exact hn, by rw [hkeep]; exact hinsq,
          hqe ▸ List.prefix_append pre [n], ?_, ?_⟩
        · rw [hqe]
          intro hc
          have := congrArg List.length hc
          simp at this
        · rw [hqe]
          have : ([n] : Path) <+: n :: rest := ⟨rest, rfl⟩
          exact (List.prefix_append_right_inj pre).mpr this
      · have hins : (fs.insert (pre ++ [n]) Node.dir).node q = fs.node q :=
          FS.node_insert_ne fs _ _ q hqe
        have hq2 : fs2.node q ≠ (fs.insert (pre ++ [n]) Node.dir).node q := by
          rw [hins]
          exact hq
        obtain ⟨h1, h2, h3, h4, h5⟩ := ih (pre ++ [n]) _ fs2 h q hq2
        rw [hins] at h1
        refine ⟨h1, h2, (List.prefix_append pre [n]).trans h3, ?_, by simpa using h5⟩
        intro hc
        rw [hc] at h3
        have := h3.length_le
        simp at this

/-- `mkdirFrom` writes only at paths comparable with any `d` that all the
created components are comparable with. -/
theorem mkdirFrom_outside : ∀ (rest pre : Path) (fs fs2 : FS) (d : Path),
    mkdirFrom fs pre rest = .ok fs2 →
    (∀ q, pre <+: q → q ≠ pre → q <+: pre ++ rest → relB q d = true) →
    entriesOutside fs2 d = entriesOutside fs d ∧ fs2.denied = fs.denied := by
  intro rest
  induction rest with
  | nil =>
    intro pre fs fs2 d h hcomp
    simp only [mkdirFrom, Except.ok.injEq] at h
    rw [h]
    exact ⟨rfl, rfl⟩
  | cons n rest ih =>
    intro pre fs fs2 d h hcomp
    have hsub : ∀ q, (pre ++ [n]) <+: q → q ≠ pre ++ [n] → q <+: (pre ++ [n]) ++ rest →
        relB q d = true := by
      intro q hq1 hq2 hq3
      refine hcomp q ((List.prefix_append pre [n]).trans hq1) ?_ (by simpa using hq3)
      intro hc
      rw [hc] at hq1
      have := hq1.length_le
      simp at this
    have hme : relB (pre ++ [n]) d = true := by
      refine hcomp (pre ++ [n]) (List.prefix_append pre [n]) ?_ ?_
      · intro hc
        have := congrArg List.length hc
        simp at this
      · have h2 : ([n] : Path) <+: n :: rest := ⟨rest, rfl⟩
        exact (List.prefix_append_right_inj pre).mpr h2
    unfold mkdirFrom at h
    cases hn : fs.node (pre ++ [n]) with
    | some nd =>
      cases nd with
      | dir =>
        rw [hn] at h
        exact ih (pre ++ [n]) fs fs2 d h hsub
      | file c =>
        rw [hn] at h
        exact absurd h (by simp)
    | none =>
      rw [hn] at h
      obtain ⟨he, hden⟩ := ih (pre ++ [n]) _ fs2 d h hsub
      rw [he, hden]
      exact ⟨entriesOutside_insert fs _ Node.dir d hme, rfl⟩

/-- `create_dir_all p` leaves `p` present as a directory. -/
theorem mkdirAll_ok_dir (fs fs2 : FS) (p : Path) (h : fs.mkdirAll p = .ok fs2) :
    fs2.node p = some Node.dir := by
  have := mkdirFrom_ok_dir p [] fs fs2 (by simp [FS.node]) h
  simpa using this

/-- Everything `create_dir_all p` changes was absent, becomes a directory,
and is a nonempty prefix of `p`. -/
theorem mkdirAll_changes (fs fs2 : FS) (p : Path) (h : fs.mkdirAll p = .ok fs2) :
    ∀ q, fs2.node q ≠ fs.node q →
      fs.node q = none ∧ fs2.node q = some Node.dir ∧ q ≠ [] ∧ q <+: p := by
  intro q hq
  obtain ⟨h1, h2, -, h4, h5⟩ := mkdirFrom_changes p [] fs fs2 h q hq
  exact ⟨h1, h2, h4, by simpa using h5⟩

/-- `create_dir_all p` only writes at prefixes of `p`, hence only at paths
comparable with `p`. -/
theorem mkdirAll_outside (fs fs2 : FS) (p : Path) (h : fs.mkdirAll p = .ok fs2) :
    entriesOutside fs2 p = entriesOutside fs p ∧ fs2.denied = fs.denied := by
  refine mkdirFrom_outside p [] fs fs2 p h ?_
  intro q hq1 hq2 hq3
  exact relB_of_prefix (by simpa using hq3)

/-! ## `Writes`: the traversal writes only inside the destination -/

/-- A successful `fs::copy` writes only at the destination path. -/
theorem copyOp_writes (fs fs2 : FS) (src dst : Path) (h : fs.copyOp src dst = .ok fs2) :
    entriesOutside fs2 dst = entriesOutside fs dst ∧ fs2.denied = fs.denied ∧
    (∀ q, fs.node q = some Node.dir → fs2.node q = some Node.dir) := by
  obtain ⟨c, hsrc, hfs2, hnil, hden, hdst, hpar⟩ := FS.copyOp_ok fs src dst fs2 h
  subst hfs2
  refine ⟨entriesOutside_insert fs dst _ dst (relB_self dst), rfl, ?_⟩
  intro q hq
  by_cases hqd : q = dst
  · rw [hqd] at hq
    exact absurd hq hdst
  · rw [FS.node_insert_ne fs dst _ q hqd]
    exact hq

/-- Entry equality outside a child's destination implies entry equality
outside the parent destination. -/
theorem entriesOutside_snoc_eq {fs fs2 : FS} {d : Path} {m : String}
    (h : entriesOutside fs2 (d ++ [m]) = entriesOutside fs (d ++ [m])) :
    entriesOutside fs2 d = entriesOutside fs d := by
  unfold entriesOutside at h ⊢
  have himp : ∀ a : Path × Node, (!(relB a.1 d)) = true → (!(relB a.1 (d ++ [m]))) = true := by
    intro a ha
    have h2 : relB a.1 d = false := by
      cases h3 : relB a.1 d
      · rfl
      · rw [h3] at ha
        exact absurd ha (by simp)
    rw [relB_snoc_false h2]
    rfl
  rw [← filter_filter_of_imp _ _ fs2.entries himp, ← filter_filter_of_imp _ _ fs.entries himp, h]

/-- `copy_file` writes only at its destination. -/
theorem writes_copyFile (source destination : Path) (args : Cli) :
    Writes destination (copyFile source destination args) := by
  intro st st' r h
  have hcase : ∀ st0 : St, st0.fs = st.fs →
      (match st.fs.copyOp source destination with
       | .error _ => st'.fs = st0.fs
       | .ok fs2 => st'.fs = fs2) →
      entriesOutside st'.fs destination = entriesOutside st.fs destination ∧
      st'.fs.denied = st.fs.denied ∧
      (∀ q, st.fs.node q = some Node.dir → st'.fs.node q = some Node.dir) := by
    intro st0 hfs0 hm
    cases hcop : st.fs.copyOp source destination with
    | error e =>
      rw [hcop] at hm
      rw [hm, hfs0]
      exact ⟨rfl, rfl, fun q hq => hq⟩
    | ok fs2 =>
      rw [hcop] at hm
      rw [hm]
      exact copyOp_writes st.fs fs2 source destination hcop
  by_cases hc : args.interactive = true ∧ st.fs.pathExists destination = true
  · cases hst : st.stdin with
    | nil =>
      unfold copyFile at h
      rw [if_pos hc, hst] at h
      simp only [readLine] at h
      rw [if_neg (by decide : ¬ (eqIgnoreAsciiCase (rustTrim "") "y" = true))] at h
      injection h with h1 h2
      subst h1
      exact ⟨rfl, rfl, fun q hq => hq⟩
    | cons line rest =>
      by_cases hy : eqIgnoreAsciiCase (rustTrim line) "y" = true
      · rw [copyFile_confirm_eq source destination args st line rest hc.1 hc.2 hst hy] at h
        refine hcase { st with stdin := rest, out := st.out ++ [Ev.prompt destination] } rfl ?_
        cases hcop : st.fs.copyOp source destination with
        | error e =>
          rw [hcop] at h
          injection h with h1 h2
          rw [← h1]
        | ok fs2 =>
          rw [hcop] at h
          cases hv : args.verbose with
          | true =>
            rw [hv] at h
            simp only [if_true] at h
            injection h with h1 h2
            rw [← h1]
          | false =>
            rw [hv] at h
            simp only [Bool.false_eq_true, if_false] at h
            injection h with h1 h2
            rw [← h1]
      · have hy2 : eqIgnoreAsciiCase (rustTrim line) "y" = false := by
          cases h3 : eqIgnoreAsciiCase (rustTrim line) "y"
          · rfl
          · exact absurd h3 hy
        rw [copyFile_decline_eq source destination args st line rest hc.1 hc.2 hst hy2] at h
        injection h with h1 h2
        subst h1
        exact ⟨rfl, rfl, fun q hq => hq⟩
  · have hor : args.interactive = false ∨ st.fs.pathExists destination = false := by
      by_cases hi : args.interactive = true
      · right
        cases h3 : st.fs.pathExists destination
        · rfl
        · exact absurd ⟨hi, h3⟩ hc
      · left
        cases h3 : args.interactive
        · rfl
        · exact absurd h3 hi
    rw [copyFile_skip_check source destination args st hor] at h
    refine hcase st rfl ?_
    cases hcop : st.fs.copyOp source destination with
    | error e =>
      rw [hcop] at h
      injection h with h1 h2
      rw [← h1]
    | ok fs2 =>
      rw [hcop] at h
      cases hv : args.verbose with
      | true =>
        rw [hv] at h
        simp only [if_true] at h
        injection h with h1 h2
        rw [← h1]
      | false =>
        rw [hv] at h
        simp only [Bool.false_eq_true, if_false] at h
        injection h with h1 h2
        rw [← h1]

/-- The entry loop writes only inside the parent destination when every
step writes only inside its child destination. -/
theorem writes_forEntries (d : Path) (step : String → St → St × Except IOErr Unit)
    (hstep : ∀ n, Writes (d ++ [n]) (step n)) :
    ∀ names, Writes d (forEntries step names) := by
  intro names
  induction names with
  | nil =>
    intro st st' r h
    simp only [forEntries] at h
    injection h with h1 h2
    subst h1
    exact ⟨rfl, rfl, fun q hq => hq⟩
  | cons n rest ih =>
    intro st st' r h
    have hunf : forEntries step (n :: rest) st =
        (match step n st with
         | (st1, .error e) => (st1, .error e)
         | (st1, .ok _) => forEntries step rest st1) := rfl
    rw [hunf] at h
    cases hs : step n st with
    | mk st1 r1 =>
      rw [hs] at h
      obtain ⟨he1, hd1, hp1⟩ := hstep n st st1 r1 hs
      have he1d : entriesOutside st1.fs d = entriesOutside st.fs d :=
        entriesOutside_snoc_eq he1
      cases r1 with
      | error e =>
        injection h with h1 h2
        subst h1
        exact ⟨he1d, hd1, hp1⟩
      | ok u =>
        obtain ⟨he2, hd2, hp2⟩ := ih st1 st' r h
        exact ⟨he2.trans he1d, hd2.trans hd1, fun q hq => hp2 q (hp1 q hq)⟩

/-- `copy_directory` writes only at paths comparable with its destination
(the created destination chain and the copied subtree), never elsewhere —
in particular it never touches the source subtree of a disjoint source. -/
theorem writes_copyDirectory (args : Cli) : ∀ (fuel : Nat) (src dst : Path),
    Writes dst (copyDirectory args fuel src dst) := by
  intro fuel
  induction fuel with
  | zero =>
    intro src dst st st' r h
    simp only [copyDirectory] at h
    injection h with h1 h2
    subst h1
    exact ⟨rfl, rfl, fun q hq => hq⟩
  | succ fuel ih =>
    intro src dst st st' r h
    unfold copyDirectory at h
    cases hs1 : (if st.fs.pathExists dst then Except.ok st.fs else st.fs.mkdirAll dst :
        Except IOErr FS) with
    | error e =>
      rw [hs1] at h
      injection h with h1 h2
      subst h1
      exact ⟨rfl, rfl, fun q hq => hq⟩
    | ok fs1 =>
      rw [hs1] at h
      dsimp only at h
      have hw1 : entriesOutside fs1 dst = entriesOutside st.fs dst ∧
          fs1.denied = st.fs.denied ∧
          (∀ q, st.fs.node q = some Node.dir → fs1.node q = some Node.dir) := by
        by_cases hex : st.fs.pathExists dst = true
        · rw [if_pos hex] at hs1
          injection hs1 with h1
          rw [← h1]
          exact ⟨rfl, rfl, fun q hq => hq⟩
        · rw [if_neg (by simpa using hex)] at hs1
          obtain ⟨he, hden⟩ := mkdirAll_outside st.fs fs1 dst hs1
          refine ⟨he, hden, ?_⟩
          intro q hq
          by_cases hch : fs1.node q = st.fs.node q
          · rw [hch]
            exact hq
          · obtain ⟨h1, h2, -⟩ := mkdirAll_changes st.fs fs1 dst hs1 q hch
            rw [h1] at hq
            exact absurd hq (by simp)
      cases hrd : FS.readDir fs1 src with
      | error e =>
        rw [hrd] at h
        injection h with h1 h2
        subst h1
        exact hw1
      | ok names =>
        rw [hrd] at h
        dsimp only at h
        have hstep : ∀ n, Writes (dst ++ [n])
            (dirStep args (fun s d st0 => copyDirectory args fuel s d st0) src dst n) := by
          intro n st0 st0' r0 h0
          unfold dirStep at h0
          by_cases hdir : st0.fs.isDir (src ++ [n]) = true
          · rw [if_pos hdir] at h0
            exact ih (src ++ [n]) (dst ++ [n]) st0 st0' r0 h0
          · rw [if_neg hdir] at h0
            exact writes_copyFile (src ++ [n]) (dst ++ [n]) args st0 st0' r0 h0
        cases hloop : forEntries
            (dirStep args (fun s d st0 => copyDirectory args fuel s d st0) src dst) names
            { st with fs := fs1 } with
        | mk st2 r2 =>
          rw [hloop] at h
          obtain ⟨he2, hd2, hp2⟩ :=
            writes_forEntries dst _ hstep names { st with fs := fs1 } st2 r2 hloop
          have hcomp : entriesOutside st2.fs dst = entriesOutside st.fs dst ∧
              st2.fs.denied = st.fs.denied ∧
              (∀ q, st.fs.node q = some Node.dir → st2.fs.node q = some Node.dir) :=
            ⟨he2.trans hw1.1, hd2.trans hw1.2.1, fun q hq => hp2 q (hw1.2.2 q hq)⟩
          cases r2 with
          | error e =>
            injection h with h1 h2
            subst h1
            exact hcomp
          | ok u =>
            cases hv : args.verbose with
            | true =>
              rw [hv] at h
              simp only [if_true] at h
              injection h with h1 h2
              rw [← h1]
              exact hcomp
            | false =>
              rw [hv] at h
              simp only [Bool.false_eq_true, if_false] at h
              injection h with h1 h2
              rw [← h1]
              exact hcomp

/-! ## `Emits`: stdout is append-only and per-directory notices are
stamped with their level -/

theorem emits_mono {L L2 : Nat} {f : St → St × Except IOErr Unit}
    (hle : L ≤ L2) (h : Emits L2 f) : Emits L f := by
  intro st st' r hf
  obtain ⟨Δ, h1, h2⟩ := h st st' r hf
  exact ⟨Δ, h1, fun s2 d2 hm => Nat.le_trans hle (h2 s2 d2 hm)⟩

/-- `copy_file` never emits a per-directory notice. -/
theorem emits_copyFile (source destination : Path) (args : Cli) (L : Nat) :
    Emits L (copyFile source destination args) := by
  intro st st' r h
  have hout : ∀ Δ0 : List Ev, st'.out = st.out ++ Δ0 →
      (∀ s2 d2, Ev.copiedDir s2 d2 ∉ Δ0) →
      ∃ Δ, st'.out = st.out ++ Δ ∧ ∀ s2 d2, Ev.copiedDir s2 d2 ∈ Δ → L ≤ s2.length := by
    intro Δ0 h1 h2
    exact ⟨Δ0, h1, fun s2 d2 hm => absurd hm (h2 s2 d2)⟩
  by_cases hc : args.interactive = true ∧ st.fs.pathExists destination = true
  · cases hst : st.stdin with
    | nil =>
      unfold copyFile at h
      rw [if_pos hc, hst] at h
      simp only [readLine] at h
      rw [if_neg (by decide : ¬ (eqIgnoreAsciiCase (rustTrim "") "y" = true))] at h
      injection h with h1 h2
      subst h1
      refine hout [Ev.prompt destination, Ev.notOverwriting destination] (by simp) ?_
      intro s2 d2
      simp
    | cons line rest =>
      by_cases hy : eqIgnoreAsciiCase (rustTrim line) "y" = true
      · rw [copyFile_confirm_eq source destination args st line rest hc.1 hc.2 hst hy] at h
        cases hcop : st.fs.copyOp source destination with
        | error e =>
          rw [hcop] at h
          injection h with h1 h2
          subst h1
          refine hout [Ev.prompt destination] (by simp) ?_
          intro s2 d2
          simp
        | ok fs2 =>
          rw [hcop] at h
          cases hv : args.verbose with
          | true =>
            rw [hv] at h
            simp only [if_true] at h
            injection h with h1 h2
            subst h1
            refine hout [Ev.prompt destination, Ev.copied source destination] (by simp) ?_
            intro s2 d2
            simp
          | false =>
            rw [hv] at h
            simp only [Bool.false_eq_true, if_false] at h
            injection h with h1 h2
            subst h1
            refine hout [Ev.prompt destination] (by simp) ?_
            intro s2 d2
            simp
      · have hy2 : eqIgnoreAsciiCase (rustTrim line) "y" = false := by
          cases h3 : eqIgnoreAsciiCase (rustTrim line) "y"
          · rfl
          · exact absurd h3 hy
        rw [copyFile_decline_eq source destination args st line rest hc.1 hc.2 hst hy2] at h
        injection h with h1 h2
        subst h1
        refine hout [Ev.prompt destination, Ev.notOverwriting destination] (by simp) ?_
        intro s2 d2
        simp
  · have hor : args.interactive = false ∨ st.fs.pathExists destination = false := by
      by_cases hi : args.interactive = true
      · right
        cases h3 : st.fs.pathExists destination
        · rfl
        · exact absurd ⟨hi, h3⟩ hc
      · left
        cases h3 : args.interactive
        · rfl
        · exact absurd h3 hi
    rw [copyFile_skip_check source destination args st hor] at h
    cases hcop : st.fs.copyOp source destination with
    | error e =>
      rw [hcop] at h
      injection h with h1 h2
      subst h1
      refine hout [] (by simp) ?_
      intro s2 d2
      simp
    | ok fs2 =>
      rw [hcop] at h
      cases hv : args.verbose with
      | true =>
        rw [hv] at h
        simp only [if_true] at h
        injection h with h1 h2
        subst h1
        refine hout [Ev.copied source destination] (by simp) ?_
        intro s2 d2
        simp
      | false =>
        rw [hv] at h
        simp only [Bool.false_eq_true, if_false] at h
        injection h with h1 h2
        subst h1
        refine hout [] (by simp) ?_
        intro s2 d2
        simp

theorem emits_forEntries (L : Nat) (step : String → St → St × Except IOErr Unit)
    (hstep : ∀ n, Emits L (step n)) :
    ∀ names, Emits L (forEntries step names) := by
  intro names
  induction names with
  | nil =>
    intro st st' r h
    simp only [forEntries] at h
    injection h with h1 h2
    subst h1
    exact ⟨[], by simp, by simp⟩
  | cons n rest ih =>
    intro st st' r h
    have hunf : forEntries step (n :: rest) st =
        (match step n st with
         | (st1, .error e) => (st1, .error e)
         | (st1, .ok _) => forEntries step rest st1) := rfl
    rw [hunf] at h
    cases hs : step n st with
    | mk st1 r1 =>
      rw [hs] at h
      obtain ⟨Δ1, h11, h12⟩ := hstep n st st1 r1 hs
      cases r1 with
      | error e =>
        injection h with h1 h2
        subst h1
        exact ⟨Δ1, h11, h12⟩
      | ok u =>
        obtain ⟨Δ2, h21, h22⟩ := ih st1 st' r h
        refine ⟨Δ1 ++ Δ2, by rw [h21, h11, List.append_assoc], ?_⟩
        intro s2 d2 hm
        rcases List.mem_append.mp hm with hm | hm
        · exact h12 s2 d2 hm
        · exact h22 s2 d2 hm

/-- Every per-directory notice emitted by `copy_directory src dst` names a
source at least as deep as `src`; in particular the notices from the
children's subtrees are strictly deeper than `src`. -/
theorem emits_copyDirectory (args : Cli) : ∀ (fuel : Nat) (src dst : Path),
    Emits src.length (copyDirectory args fuel src dst) := by
  intro fuel
  induction fuel with
  | zero =>
    intro src dst st st' r h
    simp only [copyDirectory] at h
    injection h with h1 h2
    subst h1
    exact ⟨[], by simp, by simp⟩
  | succ fuel ih =>
    intro src dst st st' r h
    unfold copyDirectory at h
    cases hs1 : (if st.fs.pathExists dst then Except.ok st.fs else st.fs.mkdirAll dst :
        Except IOErr FS) with
    | error e =>
      rw [hs1] at h
      injection h with h1 h2
      subst h1
      exact ⟨[], by simp, by simp⟩
    | ok fs1 =>
      rw [hs1] at h
      dsimp only at h
      cases hrd : FS.readDir fs1 src with
      | error e =>
        rw [hrd] at h
        injection h with h1 h2
        subst h1
        exact ⟨[], by simp, by simp⟩
      | ok names =>
        rw [hrd] at h
        dsimp only at h
        have hstep : ∀ n, Emits src.length
            (dirStep args (fun s d st0 => copyDirectory args fuel s d st0) src dst n) := by
          intro n st0 st0' r0 h0
          unfold dirStep at h0
          by_cases hdir : st0.fs.isDir (src ++ [n]) = true
          · rw [if_pos hdir] at h0
            have hlen : src.length ≤ (src ++ [n]).length := by simp
            exact emits_mono hlen (ih (src ++ [n]) (dst ++ [n])) st0 st0' r0 h0
          · rw [if_neg hdir] at h0
            exact emits_copyFile (src ++ [n]) (dst ++ [n]) args src.length st0 st0' r0 h0
        cases hloop : forEntries
            (dirStep args (fun s d st0 => copyDirectory args fuel s d st0) src dst) names
            { st with fs := fs1 } with
        | mk st2 r2 =>
          rw [hloop] at h
          obtain ⟨Δ1, h11, h12⟩ :=
            emits_forEntries src.length _ hstep names { st with fs := fs1 } st2 r2 hloop
          cases r2 with
          | error e =>
            injection h with h1 h2
            subst h1
            exact ⟨Δ1, h11, h12⟩
          | ok u =>
            cases hv : args.verbose with
            | true =>
              rw [hv] at h
              simp only [if_true] at h
              injection h with h1 h2
              subst h1
              refine ⟨Δ1 ++ [Ev.copiedDir src dst], ?_, ?_⟩
              · show st2.out ++ [Ev.copiedDir src dst] = st.out ++ (Δ1 ++ [Ev.copiedDir src dst])
                rw [h11, List.append_assoc]
              · intro s2 d2 hm
                rcases List.mem_append.mp hm with hm | hm
                · exact h12 s2 d2 hm
                · simp at hm
                  rw [hm.1]
            | false =>
              rw [hv] at h
              simp only [Bool.false_eq_true, if_false] at h
              injection h with h1 h2
              subst h1
              exact ⟨Δ1, h11, h12⟩

/-- C8: on a successful verbose run of `copy_directory`, the output grows
by a trace whose LAST event is this directory's own "Recursively copied
directory {source} to {destination}" notice — i.e. it is emitted after all
the children's notices (post-order, so a subdirectory's notice precedes
its parent's) — and that notice occurs exactly once in the run's trace;
the theorem holds for every call level, so each directory level including
the root emits exactly one such notice. -/
theorem copyDirectory_verbose_postorder (args : Cli) (fuel : Nat) (src dst : Path)
    (st st' : St) (hv : args.verbose = true)
    (h : copyDirectory args fuel src dst st = (st', .ok ())) :
    st.out <+: st'.out ∧
    (st'.out.drop st.out.length).getLast? = some (Ev.copiedDir src dst) ∧
    (st'.out.drop st.out.length).count (Ev.copiedDir src dst) = 1 := by
  cases fuel with
  | zero =>
    simp only [copyDirectory] at h
    injection h with h1 h2
    exact absurd h2 (by simp)
  | succ fuel =>
    unfold copyDirectory at h
    cases hs1 : (if st.fs.pathExists dst then Except.ok st.fs else st.fs.mkdirAll dst :
        Except IOErr FS) with
    | error e =>
      rw [hs1] at h
      injection h with h1 h2
      exact absurd h2 (by simp)
    | ok fs1 =>
      rw [hs1] at h
      dsimp only at h
      cases hrd : FS.readDir fs1 src with
      | error e =>
        rw [hrd] at h
        injection h with h1 h2
        exact absurd h2 (by simp)
      | ok names =>
        rw [hrd] at h
        dsimp only at h
        have hstep : ∀ n, Emits (src.length + 1)
            (dirStep args (fun s d st0 => copyDirectory args fuel s d st0) src dst n) := by
          intro n st0 st0' r0 h0
          unfold dirStep at h0
          by_cases hdir : st0.fs.isDir (src ++ [n]) = true
          · rw [if_pos hdir] at h0
            have hlen : src.length + 1 = (src ++ [n]).length := by simp
            rw [hlen]
            exact emits_copyDirectory args fuel (src ++ [n]) (dst ++ [n]) st0 st0' r0 h0
          · rw [if_neg hdir] at h0
            exact emits_copyFile (src ++ [n]) (dst ++ [n]) args (src.length + 1) st0 st0' r0 h0
        cases hloop : forEntries
            (dirStep args (fun s d st0 => copyDirectory args fuel s d st0) src dst) names
            { st with fs := fs1 } with
        | mk st2 r2 =>
          rw [hloop] at h
          obtain ⟨Δ1, h11, h12⟩ :=
            emits_forEntries (src.length + 1) _ hstep names { st with fs := fs1 } st2 r2 hloop
          cases r2 with
          | error e =>
            injection h with h1 h2
            exact absurd h2 (by simp)
          | ok u =>
            rw [hv] at h
            simp only [if_true] at h
            injection h with h1 h2
            have hout : st'.out = st.out ++ (Δ1 ++ [Ev.copiedDir src dst]) := by
              rw [← h1]
              show st2.out ++ [Ev.copiedDir src dst] = st.out ++ (Δ1 ++ [Ev.copiedDir src dst])
              rw [h11, List.append_assoc]
            have hdrop : st'.out.drop st.out.length = Δ1 ++ [Ev.copiedDir src dst] := by
              rw [hout, List.drop_left]
            have hnotin : Ev.copiedDir src dst ∉ Δ1 := by
              intro hm
              have := h12 src dst hm
              omega
            refine ⟨⟨Δ1 ++ [Ev.copiedDir src dst], hout.symm⟩, ?_, ?_⟩
            · rw [hdrop, List.getLast?_concat]
            · rw [hdrop, List.count_append]
              have hc1 : Δ1.count (Ev.copiedDir src dst) = 0 :=
                List.count_eq_zero.mpr hnotin
              have hc2 : List.count (Ev.copiedDir src dst) [Ev.copiedDir src dst] = 1 := by
                simp
              omega

/-- C8 witness: the spec's scenario (two files, one subdirectory) run with
verbose: exactly one root notice, emitted last. -/
theorem copyDirectory_verbose_postorder_witness :
    ((copyDirectory (mkArgs ["a"] ["b"] true true false) 3 ["a"] ["b"] (stOf fsDemo [])).1.out.drop
        ((stOf fsDemo []).out.length)).count (Ev.copiedDir ["a"] ["b"]) = 1 :=
  (copyDirectory_verbose_postorder (mkArgs ["a"] ["b"] true true false) 3 ["a"] ["b"]
    (stOf fsDemo []) _ rfl (by rfl)).2.2

/-! ## Termination: the fuel bound is sufficient on disjoint trees -/

/-- `fs::copy` never reports the model-only fuel marker. -/
theorem copyOp_no_fuelOut (fs : FS) (s d : Path) (e : IOErr)
    (h : fs.copyOp s d = .error e) : e ≠ .fuelOut := by
  unfold FS.copyOp at h
  split at h
  · injection h with h1
    rw [← h1]
    simp
  · split at h
    · injection h with h1
      rw [← h1]
      simp
    · injection h with h1
      rw [← h1]
      simp
    · split at h
      · injection h with h1
        rw [← h1]
        simp
      · split at h
        · exact absurd h (by simp)
        · injection h with h1
          rw [← h1]
          simp
        · injection h with h1
          rw [← h1]
          simp

/-- `copy_file` never reports the model-only fuel marker. -/
theorem copyFile_no_fuelOut (s d : Path) (args : Cli) (st st2 : St) (e : IOErr)
    (h : copyFile s d args st = (st2, .error e)) : e ≠ .fuelOut := by
  by_cases hc : args.interactive = true ∧ st.fs.pathExists d = true
  · cases hst : st.stdin with
    | nil =>
      unfold copyFile at h
      rw [if_pos hc, hst] at h
      simp only [readLine] at h
      rw [if_neg (by decide : ¬ (eqIgnoreAsciiCase (rustTrim "") "y" = true))] at h
      injection h with h1 h2
      exact absurd h2 (by simp)
    | cons line rest =>
      by_cases hy : eqIgnoreAsciiCase (rustTrim line) "y" = true
      · rw [copyFile_confirm_eq s d args st line rest hc.1 hc.2 hst hy] at h
        cases hcop : st.fs.copyOp s d with
        | error e2 =>
          rw [hcop] at h
          injection h with h1 h2
          injection h2 with h3
          rw [← h3]
          exact copyOp_no_fuelOut st.fs s d e2 hcop
        | ok fs2 =>
          rw [hcop] at h
          cases hv : args.verbose with
          | true =>
            rw [hv] at h
            simp only [if_true] at h
            injection h with h1 h2
            exact absurd h2 (by simp)
          | false =>
            rw [hv] at h
            simp only [Bool.false_eq_true, if_false] at h
            injection h with h1 h2
            exact absurd h2 (by simp)
      · have hy2 : eqIgnoreAsciiCase (rustTrim line) "y" = false := by
          cases h3 : eqIgnoreAsciiCase (rustTrim line) "y"
          · rfl
          · exact absurd h3 hy
        rw [copyFile_decline_eq s d args st line rest hc.1 hc.2 hst hy2] at h
        injection h with h1 h2
        exact absurd h2 (by simp)
  · have hor : args.interactive = false ∨ st.fs.pathExists d = false := by
      by_cases hi : args.interactive = true
      · right
        cases h3 : st.fs.pathExists d
        · rfl
        · exact absurd ⟨hi, h3⟩ hc
      · left
        cases h3 : args.interactive
        · rfl
        · exact absurd h3 hi
    rw [copyFile_skip_check s d args st hor] at h
    cases hcop : st.fs.copyOp s d with
    | error e2 =>
      rw [hcop] at h
      injection h with h1 h2
      injection h2 with h3
      rw [← h3]
      exact copyOp_no_fuelOut st.fs s d e2 hcop
    | ok fs2 =>
      rw [hcop] at h
      cases hv : args.verbose with
      | true =>
        rw [hv] at h
        simp only [if_true] at h
        injection h with h1 h2
        exact absurd h2 (by simp)
      | false =>
        rw [hv] at h
        simp only [Bool.false_eq_true, if_false] at h
        injection h with h1 h2
        exact absurd h2 (by simp)

theorem mkdirFrom_no_fuelOut : ∀ (rest pre : Path) (fs : FS) (e : IOErr),
    mkdirFrom fs pre rest = .error e → e ≠ .fuelOut := by
  intro rest
  induction rest with
  | nil =>
    intro pre fs e h
    exact absurd h (by simp [mkdirFrom])
  | cons n rest ih =>
    intro pre fs e h
    unfold mkdirFrom at h
    cases hn : fs.node (pre ++ [n]) with
    | some nd =>
      cases nd with
      | dir =>
        rw [hn] at h
        exact ih (pre ++ [n]) fs e h
      | file c =>
        rw [hn] at h
        injection h with h1
        rw [← h1]
        simp
    | none =>
      rw [hn] at h
      exact ih (pre ++ [n]) _ e h

theorem readDir_no_fuelOut (fs : FS) (p : Path) (e : IOErr)
    (h : fs.readDir p = .error e) : e ≠ .fuelOut := by
  unfold FS.readDir at h
  split at h
  · injection h with h1
    rw [← h1]
    simp
  · split at h
    · exact absurd h (by simp)
    · injection h with h1
      rw [← h1]
      simp
    · injection h with h1
      rw [← h1]
      simp

/-- `Path::is_dir` succeeding pins down the node. -/
theorem isDir_node (fs : FS) (p : Path) (h : fs.isDir p = true) :
    fs.node p = some Node.dir ∧ p ∉ fs.denied := by
  unfold FS.isDir FS.metadata at h
  by_cases hden : p ∈ fs.denied
  · rw [if_pos hden] at h
    exact Bool.noConfusion h
  · rw [if_neg hden] at h
    cases hn : fs.node p with
    | none =>
      rw [hn] at h
      exact Bool.noConfusion h
    | some nd =>
      cases nd with
      | dir => exact ⟨rfl, hden⟩
      | file c =>
        rw [hn] at h
        exact Bool.noConfusion h

/-- The loop body of `copy_directory` — recurse on directories, copy
files — writes only inside the child destination. -/
theorem writes_dirStep (args : Cli) (fuel : Nat) (src dst : Path) (n : String) :
    Writes (dst ++ [n])
      (dirStep args (fun s d st0 => copyDirectory args fuel s d st0) src dst n) := by
  intro st0 st0' r0 h0
  unfold dirStep at h0
  by_cases hdir : st0.fs.isDir (src ++ [n]) = true
  · rw [if_pos hdir] at h0
    exact writes_copyDirectory args fuel (src ++ [n]) (dst ++ [n]) st0 st0' r0 h0
  · rw [if_neg hdir] at h0
    exact writes_copyFile (src ++ [n]) (dst ++ [n]) args st0 st0' r0 h0

/-- With disjoint source and destination, enough fuel for the deepest
source entry, the traversal never hits the fuel marker: every recursive
call is on a strict child whose subtree is one level shallower. -/
theorem term_copyDirectory (args : Cli) : ∀ (fuel : Nat) (src dst : Path) (st : St),
    relB src dst = false →
    (∀ p nd, st.fs.node p = some nd → src <+: p → p.length < src.length + fuel) →
    0 < fuel →
    (copyDirectory args fuel src dst st).2 ≠ .error .fuelOut := by
  intro fuel
  induction fuel with
  | zero =>
    intro src dst st hrel hbound hpos
    exact absurd hpos (by omega)
  | succ fuel ih =>
    intro src dst st hrel hbound hpos
    have hloopLemma : ∀ (names : List String) (st1 : St),
        (∀ p nd, st1.fs.node p = some nd → src <+: p → p.length < src.length + fuel + 1) →
        (forEntries (dirStep args (fun s d st0 => copyDirectory args fuel s d st0) src dst)
          names st1).2 ≠ .error .fuelOut := by
      intro names
      induction names with
      | nil =>
        intro st1 hb
        simp [forEntries]
      | cons n rest ihn =>
        intro st1 hb
        have hunf : forEntries
            (dirStep args (fun s d st0 => copyDirectory args fuel s d st0) src dst)
            (n :: rest) st1 =
            (match dirStep args (fun s d st0 => copyDirectory args fuel s d st0) src dst n st1 with
             | (st2, .error e) => (st2, .error e)
             | (st2, .ok _) => forEntries
                 (dirStep args (fun s d st0 => copyDirectory args fuel s d st0) src dst)
                 rest st2) := rfl
        rw [hunf]
        cases hs : dirStep args (fun s d st0 => copyDirectory args fuel s d st0) src dst n st1 with
        | mk st2 r2 =>
          cases r2 with
          | error e =>
            show Except.error e ≠ Except.error IOErr.fuelOut
            unfold dirStep at hs
            by_cases hdir : st1.fs.isDir (src ++ [n]) = true
            · rw [if_pos hdir] at hs
              obtain ⟨hnode, -⟩ := isDir_node st1.fs (src ++ [n]) hdir
              have hchild : (src ++ [n]).length < src.length + fuel + 1 :=
                hb (src ++ [n]) Node.dir hnode (List.prefix_append src [n])
              have hfpos : 0 < fuel := by
                simp only [List.length_append, List.length_singleton] at hchild
                omega
              have hbc : ∀ p nd, st1.fs.node p = some nd → (src ++ [n]) <+: p →
                  p.length < (src ++ [n]).length + fuel := by
                intro p nd hp hpre
                have := hb p nd hp ((List.prefix_append src [n]).trans hpre)
                simp only [List.length_append, List.length_singleton]
                omega
              have hth := ih (src ++ [n]) (dst ++ [n]) st1 (relB_child_false n hrel) hbc hfpos
              have hs2 : copyDirectory args fuel (src ++ [n]) (dst ++ [n]) st1 =
                  (st2, Except.error e) := hs
              rw [hs2] at hth
              simpa using hth
            · rw [if_neg hdir] at hs
              have := copyFile_no_fuelOut (src ++ [n]) (dst ++ [n]) args st1 st2 e hs
              simpa using this
          | ok u =>
            refine ihn st2 ?_
            intro p nd hp hpre
            have hw := writes_dirStep args fuel src dst n st1 st2 (.ok u) hs
            have hrq : relB p (dst ++ [n]) = false := relB_sub_snoc_false hrel hpre
            have hnode : st1.fs.node p = some nd := by
              rw [← node_eq_of_outside hw.1 p hrq]
              exact hp
            exact hb p nd hnode hpre
    unfold copyDirectory
    cases hs1 : (if st.fs.pathExists dst then Except.ok st.fs else st.fs.mkdirAll dst :
        Except IOErr FS) with
    | error e =>
      show Except.error e ≠ Except.error IOErr.fuelOut
      by_cases hex : st.fs.pathExists dst = true
      · rw [if_pos hex] at hs1
        exact absurd hs1 (by simp)
      · rw [if_neg (by simpa using hex)] at hs1
        have := mkdirFrom_no_fuelOut dst [] st.fs e hs1
        simpa using this
    | ok fs1 =>
      dsimp only
      have hfs1 : ∀ p nd, fs1.node p = some nd → src <+: p →
          p.length < src.length + (fuel + 1) := by
        intro p nd hp hpre
        have hfr : entriesOutside fs1 dst = entriesOutside st.fs dst := by
          by_cases hex : st.fs.pathExists dst = true
          · rw [if_pos hex] at hs1
            injection hs1 with h1
            rw [← h1]
          · rw [if_neg (by simpa using hex)] at hs1
            exact (mkdirAll_outside st.fs fs1 dst hs1).1
        have hrq : relB p dst = false := relB_sub_false hrel hpre
        rw [node_eq_of_outside hfr p hrq] at hp
        exact hbound p nd hp hpre
      cases hrd : FS.readDir fs1 src with
      | error e =>
        have := readDir_no_fuelOut fs1 src e hrd
        simpa using this
      | ok names =>
        dsimp only
        cases hloop : forEntries
            (dirStep args (fun s d st0 => copyDirectory args fuel s d st0) src dst) names
            { st with fs := fs1 } with
        | mk st2 r2 =>
          have hne := hloopLemma names { st with fs := fs1 } hfs1
          rw [hloop] at hne
          cases r2 with
          | error e =>
            simpa using hne
          | ok u =>
            cases hv : args.verbose with
            | true => simp
            | false => simp

/-- A present node at a nonempty path comes from an entry. -/
theorem node_entry (fs : FS) (p : Path) (nd : Node) (hp : fs.node p = some nd)
    (hpnil : p ≠ []) : ∃ e ∈ fs.entries, e.1 = p := by
  unfold FS.node at hp
  rw [if_neg hpnil] at hp
  unfold FS.lookup at hp
  cases hf : fs.entries.find? (fun e => decide (e.1 = p)) with
  | none =>
    rw [hf] at hp
    exact absurd hp (by simp)
  | some ent =>
    have hkey := List.find?_some hf
    simp only [decide_eq_true_eq] at hkey
    exact ⟨ent, List.mem_of_find?_eq_some hf, hkey⟩

/-- The decidable height bound gives the bound `term_copyDirectory`
needs. -/
theorem heightOkB_node (fs : FS) (src : Path) (fuel : Nat)
    (hh : heightOkB fs src fuel = true) (hsrc : src ≠ []) :
    ∀ p nd, fs.node p = some nd → src <+: p → p.length < src.length + fuel := by
  intro p nd hp hpre
  have hpnil : p ≠ [] := by
    intro hc
    rw [hc] at hpre
    exact hsrc (List.prefix_nil.mp hpre)
  obtain ⟨ent, hmem, hkey⟩ := node_entry fs p nd hp hpnil
  have hall := List.all_eq_true.mp hh ent hmem
  rw [hkey] at hall
  rw [List.isPrefixOf_iff_prefix.mpr hpre] at hall
  simpa using hall

theorem foldr_max_bound (l : List (Path × Node)) :
    ∀ e ∈ l, e.1.length ≤ l.foldr (fun e m => max e.1.length m) 0 := by
  induction l with
  | nil => intro e he; exact absurd he (by simp)
  | cons a rest ih =>
    intro e he
    rcases List.mem_cons.mp he with he | he
    · rw [he]
      exact Nat.le_max_left _ _
    · exact Nat.le_trans (ih e he) (Nat.le_max_right _ _)

/-- Every entry is no deeper than `maxLen`. -/
theorem maxLen_bound (fs : FS) : ∀ e ∈ fs.entries, e.1.length ≤ fs.maxLen :=
  foldr_max_bound fs.entries

/-- C10 (amended): provided the source and destination trees are disjoint
(neither is a prefix of the other), the recursive directory copy
terminates and is bounded by the depth of the source tree: any fuel
covering the deepest source entry — in particular `main`'s budget
`maxLen + 1` — never hits the fuel marker.  (When the destination lies
strictly inside the source, the traversal keeps descending into the
directories it itself creates and the recursion is NOT bounded by the
source tree's depth — the counterexample exhausts fuel 50 on a
one-entry tree.) -/
theorem copyDirectory_terminates (args : Cli) (fuel : Nat) (src dst : Path) (st : St)
    (hrel : relB src dst = false) (hh : heightOkB st.fs src fuel = true)
    (hpos : 0 < fuel) :
    (copyDirectory args fuel src dst st).2 ≠ .error .fuelOut ∧
    (copyDirectory args (mainFuel st.fs) src dst st).2 ≠ .error .fuelOut := by
  have hsrc : src ≠ [] := ne_nil_of_relB_false hrel
  constructor
  · exact term_copyDirectory args fuel src dst st hrel
      (heightOkB_node st.fs src fuel hh hsrc) hpos
  · refine term_copyDirectory args (mainFuel st.fs) src dst st hrel ?_
      (by unfold mainFuel; omega)
    intro p nd hp hpre
    have hpnil : p ≠ [] := by
      intro hc
      rw [hc] at hpre
      exact hsrc (List.prefix_nil.mp hpre)
    obtain ⟨ent, hmem, hkey⟩ := node_entry st.fs p nd hp hpnil
    have := maxLen_bound st.fs ent hmem
    rw [hkey] at this
    unfold mainFuel
    omega

/-- C10 witness: the demo tree (depth 3) copied to a disjoint destination
with fuel 3 never hits the fuel marker, and neither does the `main`
budget. -/
theorem copyDirectory_terminates_witness :
    (copyDirectory (mkArgs ["a"] ["b"] true false false) 3 ["a"] ["b"]
      (stOf fsDemo [])).2 ≠ .error .fuelOut ∧
    (copyDirectory (mkArgs ["a"] ["b"] true false false) (mainFuel fsDemo) ["a"] ["b"]
      (stOf fsDemo [])).2 ≠ .error .fuelOut :=
  copyDirectory_terminates (mkArgs ["a"] ["b"] true false false) 3 ["a"] ["b"]
    (stOf fsDemo []) (by decide) (by decide) (by decide)

set_option maxRecDepth 100000 in
/-- C10 counterexample: the claim says the recursion is bounded by the
depth of the source tree; but copying `/a` into `/a/b` — the source tree
has a single entry, depth 1 — still exhausts 50 levels of recursion,
because each level creates the next directory it then descends into.  So
the traversal does not terminate within any bound derived from the tree's
depth. -/
theorem copyDirectory_self_nested_cex :
    (copyDirectory (mkArgs ["a"] ["a", "b"] true false false) 50 ["a"] ["a", "b"]
      (stOf fsSelfNest [])).2 = .error .fuelOut ∧
    fsSelfNest.maxLen = 1 :=
  ⟨by rfl, by rfl⟩

/-! ## Support lemmas for the mirroring theorem -/

/-- `Path::exists` succeeding pins down a present, readable node. -/
theorem pathExists_node (fs : FS) (p : Path) (h : fs.pathExists p = true) :
    (fs.node p).isSome ∧ p ∉ fs.denied := by
  unfold FS.pathExists FS.metadata at h
  by_cases hden : p ∈ fs.denied
  · rw [if_pos hden] at h
    exact Bool.noConfusion h
  · rw [if_neg hden] at h
    cases hn : fs.node p with
    | none =>
      rw [hn] at h
      exact Bool.noConfusion h
    | some nd => exact ⟨rfl, hden⟩

/-- A successful `read_dir` lists exactly the children of a readable
directory. -/
theorem readDir_ok (fs : FS) (p : Path) (names : List String)
    (h : fs.readDir p = .ok names) :
    names = fs.childrenNames p ∧ fs.node p = some Node.dir ∧ p ∉ fs.denied := by
  unfold FS.readDir at h
  by_cases hden : p ∈ fs.denied
  · rw [if_pos hden] at h
    exact absurd h (by simp)
  · rw [if_neg hden] at h
    cases hn : fs.node p with
    | none =>
      rw [hn] at h
      exact absurd h (by simp)
    | some nd =>
      cases nd with
      | dir =>
        rw [hn] at h
        injection h with h1
        exact ⟨h1.symm, rfl, hden⟩
      | file c =>
        rw [hn] at h
        exact absurd h (by simp)

/-- A present child path appears in the directory listing. -/
theorem childrenNames_complete (fs : FS) (p : Path) (n : String) (nd : Node)
    (h : fs.node (p ++ [n]) = some nd) : n ∈ fs.childrenNames p := by
  obtain ⟨ent, hmem, hkey⟩ := node_entry fs (p ++ [n]) nd h (by simp)
  unfold FS.childrenNames
  rw [List.mem_filterMap]
  refine ⟨ent, hmem, ?_⟩
  rw [hkey]
  simp [List.dropLast_concat, List.getLast?_concat]

/-- A listed child is present. -/
theorem childrenNames_sound (fs : FS) (p : Path) (n : String)
    (h : n ∈ fs.childrenNames p) : (fs.node (p ++ [n])).isSome := by
  unfold FS.childrenNames at h
  rw [List.mem_filterMap] at h
  obtain ⟨ent, hmem, hf⟩ := h
  by_cases hc : ent.1.dropLast = p ∧ ent.1 ≠ []
  · rw [if_pos hc] at hf
    have hent : ent.1 = p ++ [n] := by
      have h2 := List.dropLast_append_getLast? n hf
      rw [hc.1] at h2
      exact h2.symm
    unfold FS.node
    rw [if_neg (by simp : ¬ (p ++ [n] = ([] : Path)))]
    unfold FS.lookup
    have hsome : (List.find? (fun e => decide (e.1 = p ++ [n])) fs.entries).isSome :=
      List.find?_isSome.mpr ⟨ent, hmem, by rw [hent]; simp⟩
    obtain ⟨a, ha⟩ := Option.isSome_iff_exists.mp hsome
    rw [ha]
    rfl
  · rw [if_neg hc] at hf
    exact absurd hf (by simp)

/-- Tree-consistency under `src` restricts to each child. -/
theorem goodUnder_child {fs : FS} {src : Path} (h : fs.goodUnder src) (n : String) :
    fs.goodUnder (src ++ [n]) := by
  intro rel k hsome h0 hk
  have h2 := h (n :: rel) (k + 1) (by simpa [List.append_assoc] using hsome)
    (by omega) (by simp; omega)
  rw [List.take_succ_cons] at h2
  simpa [List.append_assoc] using h2

/-- Tree-consistency transfers along node equality on the subtree. -/
theorem goodUnder_transfer {fs fs2 : FS} {src : Path}
    (heq : ∀ q, src <+: q → fs2.node q = fs.node q) (h : fs.goodUnder src) :
    fs2.goodUnder src := by
  intro rel k hsome h0 hk
  rw [heq (src ++ rel.take k) ⟨rel.take k, rfl⟩]
  rw [heq (src ++ rel) ⟨rel, rfl⟩] at hsome
  exact h rel k hsome h0 hk

/-- Sibling branches of the same parent are incomparable. -/
theorem relB_branch_false {d : Path} {m n : String} (hmn : m ≠ n) (rel : Path) :
    relB (d ++ [m] ++ rel) (d ++ [n]) = false := by
  rw [relB_eq_false_iff]
  constructor
  · intro hc
    rw [List.append_assoc] at hc
    have h2 : [m] ++ rel <+: [n] := (List.prefix_append_right_inj d).mp hc
    have h3 := List.cons_prefix_cons.mp h2
    exact hmn h3.1
  · intro hc
    rw [List.append_assoc] at hc
    have h2 : [n] <+: [m] ++ rel := (List.prefix_append_right_inj d).mp hc
    have h3 := List.cons_prefix_cons.mp h2
    exact hmn h3.1.symm

/-- The entry loop does not touch paths incomparable with every child
destination. -/
theorem forEntries_frame (args : Cli) (fuel : Nat) (src dst : Path) :
    ∀ (names : List String) (st1 st2 : St) (r : Except IOErr Unit),
      forEntries (dirStep args (fun s d st0 => copyDirectory args fuel s d st0) src dst)
        names st1 = (st2, r) →
      ∀ q, (∀ m ∈ names, relB q (dst ++ [m]) = false) →
        st2.fs.node q = st1.fs.node q := by
  intro names
  induction names with
  | nil =>
    intro st1 st2 r h q hq
    simp only [forEntries] at h
    injection h with h1 h2
    rw [← h1]
  | cons n rest ih =>
    intro st1 st2 r h q hq
    have hunf : forEntries
        (dirStep args (fun s d st0 => copyDirectory args fuel s d st0) src dst)
        (n :: rest) st1 =
        (match dirStep args (fun s d st0 => copyDirectory args fuel s d st0) src dst n st1 with
         | (stA, .error e) => (stA, .error e)
         | (stA, .ok _) => forEntries
             (dirStep args (fun s d st0 => copyDirectory args fuel s d st0) src dst)
             rest stA) := rfl
    rw [hunf] at h
    cases hs : dirStep args (fun s d st0 => copyDirectory args fuel s d st0) src dst n st1 with
    | mk stA rA =>
      rw [hs] at h
      have hw := writes_dirStep args fuel src dst n st1 stA rA hs
      have hA : stA.fs.node q = st1.fs.node q :=
        node_eq_of_outside hw.1 q (hq n (by simp))
      cases rA with
      | error e =>
        injection h with h1 h2
        rw [← h1, hA]
      | ok u =>
        rw [ih stA st2 r h q (fun m hm => hq m (by simp [hm])), hA]

/-- The entry loop preserves directories (each step does). -/
theorem forEntries_preserves_dir (args : Cli) (fuel : Nat) (src dst : Path) :
    ∀ (names : List String) (st1 st2 : St) (r : Except IOErr Unit),
      forEntries (dirStep args (fun s d st0 => copyDirectory args fuel s d st0) src dst)
        names st1 = (st2, r) →
      ∀ q, st1.fs.node q = some Node.dir → st2.fs.node q = some Node.dir := by
  intro names st1 st2 r h
  have hstep : ∀ n, Writes (dst ++ [n])
      (dirStep args (fun s d st0 => copyDirectory args fuel s d st0) src dst n) :=
    fun n => writes_dirStep args fuel src dst n
  exact (writes_forEntries dst _ hstep names st1 st2 r h).2.2

/-- The decidable tree-consistency check implies the propositional one. -/
theorem goodUnderB_goodUnder (fs : FS) (src : Path)
    (h : fs.goodUnderB src = true) (hsrc : src ≠ []) : fs.goodUnder src := by
  intro rel k hsome h0k hk
  obtain ⟨nd, hnd⟩ := Option.isSome_iff_exists.mp hsome
  obtain ⟨ent, hmem, hkey⟩ := node_entry fs (src ++ rel) nd hnd (by simp [hsrc])
  have hall := List.all_eq_true.mp h ent hmem
  rw [hkey] at hall
  rw [List.isPrefixOf_iff_prefix.mpr (List.prefix_append src rel)] at hall
  simp only [Bool.not_true, Bool.false_or] at hall
  have hmem2 : src.length + k ∈ List.range (src ++ rel).length := by
    rw [List.mem_range, List.length_append]
    omega
  have hk2 := List.all_eq_true.mp hall (src.length + k) hmem2
  rw [decide_eq_true (by omega : src.length < src.length + k)] at hk2
  simp only [Bool.not_true, Bool.false_or] at hk2
  have hk3 := of_decide_eq_true (by simpa using hk2)
  rw [List.take_append k] at hk3
  exact hk3

/-- The decidable no-conflict check implies the propositional one. -/
theorem noConflictB_noConflict (fs : FS) (src dst : Path)
    (h : fs.noConflictB src dst = true) (hsrc : src ≠ []) : fs.noConflict src dst := by
  intro rel c hdir hfile
  obtain ⟨ent, hmem, hkey⟩ := node_entry fs (src ++ rel) Node.dir hdir (by simp [hsrc])
  have hall := List.all_eq_true.mp h ent hmem
  rw [hkey] at hall
  rw [List.isPrefixOf_iff_prefix.mpr (List.prefix_append src rel)] at hall
  rw [hdir] at hall
  rw [List.drop_left src rel] at hall
  rw [hfile] at hall
  simp at hall

/-- The mirroring induction: a successful non-interactive `copy_directory`
on disjoint trees (with a tree-consistent source and no pre-existing
destination file where the source has a directory) copies every source
node to the corresponding destination path, and writes only at the
destination chain or at destination paths obtained from present source
paths by relative substitution. -/
theorem mirror_copyDirectory (args : Cli) (hint : args.interactive = false) :
    ∀ (fuel : Nat) (src dst : Path) (st st' : St),
      relB src dst = false →
      st.fs.goodUnder src →
      st.fs.noConflict src dst →
      copyDirectory args fuel src dst st = (st', .ok ()) →
      (∀ rel nd, st.fs.node (src ++ rel) = some nd → st'.fs.node (dst ++ rel) = some nd) ∧
      (∀ q, st'.fs.node q ≠ st.fs.node q →
        q <+: dst ∨ ∃ rel, q = dst ++ rel ∧ (st.fs.node (src ++ rel)).isSome) := by
  intro fuel
  induction fuel with
  | zero =>
    intro src dst st st' hrel hGU hNC h
    simp only [copyDirectory] at h
    injection h with h1 h2
    exact absurd h2 (by simp)
  | succ fuel ih =>
    intro src dst st st' hrel hGU hNC h
    have hloopM : ∀ (names : List String) (st1 st2 : St),
        (∀ n ∈ names, (st1.fs.node (src ++ [n])).isSome) →
        st1.fs.goodUnder src →
        (∀ n ∈ names, ∀ rel c, st1.fs.node (src ++ [n] ++ rel) = some Node.dir →
          st1.fs.node (dst ++ [n] ++ rel) ≠ some (Node.file c)) →
        forEntries (dirStep args (fun s d st0 => copyDirectory args fuel s d st0) src dst)
          names st1 = (st2, .ok ()) →
        (∀ n ∈ names, ∀ rel nd, st1.fs.node (src ++ [n] ++ rel) = some nd →
          st2.fs.node (dst ++ [n] ++ rel) = some nd) ∧
        (∀ q, st2.fs.node q ≠ st1.fs.node q →
          q <+: dst ∨ ∃ rel, q = dst ++ rel ∧ rel ≠ [] ∧
            (st1.fs.node (src ++ rel)).isSome) := by
      intro names
      induction names with
      | nil =>
        intro st1 st2 hpres hGU1 hNC1 hrun
        simp only [forEntries] at hrun
        injection hrun with h1 h2
        subst h1
        refine ⟨?_, ?_⟩
        · intro n hn
          exact absurd hn (by simp)
        · intro q hq
          exact absurd rfl hq
      | cons n rest ihn =>
        intro st1 st2 hpres hGU1 hNC1 hrun
        have hunf : forEntries
            (dirStep args (fun s d st0 => copyDirectory args fuel s d st0) src dst)
            (n :: rest) st1 =
            (match dirStep args (fun s d st0 => copyDirectory args fuel s d st0)
                src dst n st1 with
             | (stA, .error e) => (stA, .error e)
             | (stA, .ok _) => forEntries
                 (dirStep args (fun s d st0 => copyDirectory args fuel s d st0) src dst)
                 rest stA) := rfl
        rw [hunf] at hrun
        cases hs : dirStep args (fun s d st0 => copyDirectory args fuel s d st0)
            src dst n st1 with
        | mk stA rA =>
          rw [hs] at hrun
          cases rA with
          | error e =>
            injection hrun with h1 h2
            exact absurd h2 (by simp)
          | ok u =>
            have hwA := writes_dirStep args fuel src dst n st1 stA (.ok u) hs
            have hframeA : ∀ q, relB q (dst ++ [n]) = false →
                stA.fs.node q = st1.fs.node q :=
              fun q hq => node_eq_of_outside hwA.1 q hq
            have hsrcInv : ∀ q, src <+: q → stA.fs.node q = st1.fs.node q :=
              fun q hq => hframeA q (relB_sub_snoc_false hrel hq)
            have hpresR : ∀ m ∈ rest, (stA.fs.node (src ++ [m])).isSome := by
              intro m hm
              rw [hsrcInv (src ++ [m]) (List.prefix_append src [m])]
              exact hpres m (by simp [hm])
            have hGUR : stA.fs.goodUnder src := goodUnder_transfer hsrcInv hGU1
            have hsrc3 : ∀ m (rel : Path), src <+: src ++ [m] ++ rel :=
              fun m rel => (List.prefix_append src [m]).trans (List.prefix_append _ rel)
            by_cases hdir : st1.fs.isDir (src ++ [n]) = true
            · -- the child is a directory: the loop recursed into it
              have hsC : copyDirectory args fuel (src ++ [n]) (dst ++ [n]) st1 =
                  (stA, .ok u) := by
                unfold dirStep at hs
                rw [if_pos hdir] at hs
                exact hs
              obtain ⟨hnode, -⟩ := isDir_node st1.fs (src ++ [n]) hdir
              have hNCC : st1.fs.noConflict (src ++ [n]) (dst ++ [n]) :=
                fun rel c h1 => hNC1 n (by simp) rel c h1
              obtain ⟨hM1C, hM2C⟩ := ih (src ++ [n]) (dst ++ [n]) st1 stA
                (relB_child_false n hrel) (goodUnder_child hGU1 n) hNCC hsC
              have hNCR : ∀ m ∈ rest, ∀ rel c,
                  stA.fs.node (src ++ [m] ++ rel) = some Node.dir →
                  stA.fs.node (dst ++ [m] ++ rel) ≠ some (Node.file c) := by
                intro m hm rel c h1 h2
                have h1s : st1.fs.node (src ++ [m] ++ rel) = some Node.dir := by
                  rw [← hsrcInv _ (hsrc3 m rel)]
                  exact h1
                by_cases hmn : m = n
                · subst hmn
                  by_cases hch : stA.fs.node (dst ++ [m] ++ rel) =
                      st1.fs.node (dst ++ [m] ++ rel)
                  · rw [hch] at h2
                    exact hNC1 m (by simp) rel c h1s h2
                  · rcases hM2C (dst ++ [m] ++ rel) hch with hq | ⟨rel2, hq, -⟩
                    · have hlen := hq.length_le
                      simp only [List.length_append, List.length_singleton] at hlen
                      have hrel0 : rel = [] := List.eq_nil_of_length_eq_zero (by omega)
                      subst hrel0
                      have h3 := hM1C [] Node.dir (by simpa using h1s)
                      simp only [List.append_nil] at h3 h2
                      rw [h3] at h2
                      exact Node.noConfusion (Option.some.inj h2)
                    · have hr2 : rel = rel2 := List.append_cancel_left hq
                      subst hr2
                      have h3 := hM1C rel Node.dir h1s
                      rw [h3] at h2
                      exact Node.noConfusion (Option.some.inj h2)
                · have hq : relB (dst ++ [m] ++ rel) (dst ++ [n]) = false :=
                    relB_branch_false hmn rel
                  rw [hframeA _ hq] at h2
                  exact hNC1 m (by simp [hm]) rel c h1s h2
              obtain ⟨hM1R, hM2R⟩ := ihn stA st2 hpresR hGUR hNCR hrun
              refine ⟨?_, ?_⟩
              · intro m hm rel nd hmnode
                rcases List.mem_cons.mp hm with hm | hm
                · subst hm
                  have hA := hM1C rel nd hmnode
                  by_cases hmem : m ∈ rest
                  · refine hM1R m hmem rel nd ?_
                    rw [hsrcInv _ (hsrc3 m rel)]
                    exact hmnode
                  · have hfr := forEntries_frame args fuel src dst rest stA st2
                      (Except.ok ()) hrun (dst ++ [m] ++ rel) (fun m2 hm2 =>
                        relB_branch_false (fun he => hmem (by rw [he]; exact hm2)) rel)
                    rw [hfr]
                    exact hA
                · refine hM1R m hm rel nd ?_
                  rw [hsrcInv _ (hsrc3 m rel)]
                  exact hmnode
              · intro q hq
                by_cases hch2 : st2.fs.node q = stA.fs.node q
                · have hchA : stA.fs.node q ≠ st1.fs.node q := by
                    rw [← hch2]
                    exact hq
                  rcases hM2C q hchA with hq2 | ⟨rel2, hq2, hq3⟩
                  · rcases prefix_snoc_iff.mp hq2 with h3 | h3
                    · exact Or.inl h3
                    · refine Or.inr ⟨[n], by rw [h3], by simp, hpres n (by simp)⟩
                  · refine Or.inr ⟨[n] ++ rel2, ?_, by simp, ?_⟩
                    · rw [hq2, List.append_assoc]
                    · rw [show src ++ ([n] ++ rel2) = src ++ [n] ++ rel2 by
                        rw [List.append_assoc]]
                      exact hq3
                · rcases hM2R q hch2 with h3 | ⟨rel2, h3, h4, h5⟩
                  · exact Or.inl h3
                  · refine Or.inr ⟨rel2, h3, h4, ?_⟩
                    rw [← hsrcInv (src ++ rel2) ⟨rel2, rfl⟩]
                    exact h5
            · -- the child is not a directory: the loop called `copy_file`
              have hsF : copyFile (src ++ [n]) (dst ++ [n]) args st1 = (stA, .ok u) := by
                unfold dirStep at hs
                rw [if_neg hdir] at hs
                exact hs
              rw [copyFile_skip_check _ _ args st1 (Or.inl hint)] at hsF
              cases hcop : st1.fs.copyOp (src ++ [n]) (dst ++ [n]) with
              | error e =>
                rw [hcop] at hsF
                injection hsF with h1 h2
                exact absurd h2 (by simp)
              | ok fs2 =>
                rw [hcop] at hsF
                have hstA : stA.fs = fs2 := by
                  cases hv : args.verbose with
                  | true =>
                    rw [hv] at hsF
                    simp only [if_true] at hsF
                    injection hsF with h1 h2
                    rw [← h1]
                  | false =>
                    rw [hv] at hsF
                    simp only [Bool.false_eq_true, if_false] at hsF
                    injection hsF with h1 h2
                    rw [← h1]
                obtain ⟨c, hsrcc, hfs2, -, -, -, -⟩ :=
                  FS.copyOp_ok st1.fs _ _ fs2 hcop
                have hAq : ∀ q, q ≠ dst ++ [n] → stA.fs.node q = st1.fs.node q := by
                  intro q hqne
                  rw [hstA, hfs2]
                  exact FS.node_insert_ne _ _ _ q hqne
                have hAdst : stA.fs.node (dst ++ [n]) = some (Node.file c) := by
                  rw [hstA, hfs2]
                  exact FS.node_insert_self _ _ _ (by simp)
                have hsrcdirFalse : ∀ rel : Path, rel ≠ [] →
                    ¬ (st1.fs.node (src ++ [n] ++ rel)).isSome := by
                  intro rel hrelne hsome
                  cases rel with
                  | nil => exact hrelne rfl
                  | cons r rs =>
                    have h2 := hGU1 ([n] ++ r :: rs) 1
                      (by rw [show src ++ ([n] ++ r :: rs) = src ++ [n] ++ r :: rs by
                        rw [List.append_assoc]]; exact hsome)
                      (by omega) (by simp)
                    have h2b : st1.fs.node (src ++ [n]) = some Node.dir := by
                      simpa using h2
                    rw [hsrcc] at h2b
                    exact Node.noConfusion (Option.some.inj h2b)
                have hNCR : ∀ m ∈ rest, ∀ rel c,
                    stA.fs.node (src ++ [m] ++ rel) = some Node.dir →
                    stA.fs.node (dst ++ [m] ++ rel) ≠ some (Node.file c) := by
                  intro m hm rel c h1 h2
                  have h1s : st1.fs.node (src ++ [m] ++ rel) = some Node.dir := by
                    rw [← hsrcInv _ (hsrc3 m rel)]
                    exact h1
                  by_cases hmn : m = n
                  · subst hmn
                    cases rel with
                    | nil =>
                      simp only [List.append_nil] at h1s
                      rw [hsrcc] at h1s
                      exact Node.noConfusion (Option.some.inj h1s)
                    | cons r rs =>
                      refine absurd ?_ (hsrcdirFalse (r :: rs) (by simp))
                      rw [h1s]
                      rfl
                  · have hq : relB (dst ++ [m] ++ rel) (dst ++ [n]) = false :=
                      relB_branch_false hmn rel
                    have hqne : dst ++ [m] ++ rel ≠ dst ++ [n] := by
                      intro he
                      rw [he, relB_self] at hq
                      exact Bool.noConfusion hq
                    rw [hAq _ hqne] at h2
                    exact hNC1 m (by simp [hm]) rel c h1s h2
                obtain ⟨hM1R, hM2R⟩ := ihn stA st2 hpresR hGUR hNCR hrun
                refine ⟨?_, ?_⟩
                · intro m hm rel nd hmnode
                  rcases List.mem_cons.mp hm with hm | hm
                  · subst hm
                    cases rel with
                    | cons r rs =>
                      exact absurd (by rw [hmnode]; rfl)
                        (hsrcdirFalse (r :: rs) (by simp))
                    | nil =>
                      simp only [List.append_nil] at hmnode ⊢
                      rw [hsrcc] at hmnode
                      have hnd : nd = Node.file c := (Option.some.inj hmnode).symm
                      subst hnd
                      by_cases hmem : m ∈ rest
                      · have hres := hM1R m hmem [] (Node.file c) (by
                          simp only [List.append_nil]
                          rw [hsrcInv _ (List.prefix_append src [m])]
                          exact hsrcc)
                        simpa using hres
                      · have hfr := forEntries_frame args fuel src dst rest stA st2
                          (Except.ok ()) hrun (dst ++ [m]) (fun m2 hm2 => by
                            have hne : m ≠ m2 := fun he => hmem (by rw [he]; exact hm2)
                            have hrb := @relB_branch_false dst m m2 hne ([] : Path)
                            simpa using hrb)
                        rw [hfr]
                        exact hAdst
                  · refine hM1R m hm rel nd ?_
                    rw [hsrcInv _ (hsrc3 m rel)]
                    exact hmnode
                · intro q hq
                  by_cases hch2 : st2.fs.node q = stA.fs.node q
                  · by_cases hqd : q = dst ++ [n]
                    · refine Or.inr ⟨[n], hqd, by simp, ?_⟩
                      rw [hsrcc]
                      rfl
                    · rw [hch2, hAq q hqd] at hq
                      exact absurd rfl hq
                  · rcases hM2R q hch2 with h3 | ⟨rel2, h3, h4, h5⟩
                    · exact Or.inl h3
                    · refine Or.inr ⟨rel2, h3, h4, ?_⟩
                      rw [← hsrcInv (src ++ rel2) ⟨rel2, rfl⟩]
                      exact h5
    -- the body of `copy_directory` at fuel + 1
    unfold copyDirectory at h
    cases hs1 : (if st.fs.pathExists dst then Except.ok st.fs else st.fs.mkdirAll dst :
        Except IOErr FS) with
    | error e =>
      rw [hs1] at h
      injection h with h1 h2
      exact absurd h2 (by simp)
    | ok fs1 =>
      rw [hs1] at h
      dsimp only at h
      have hF1 : ∀ q, relB q dst = false → fs1.node q = st.fs.node q := by
        intro q hq
        by_cases hex : st.fs.pathExists dst = true
        · rw [if_pos hex] at hs1
          injection hs1 with h1
          rw [← h1]
        · rw [if_neg (by simpa using hex)] at hs1
          exact node_eq_of_outside (mkdirAll_outside st.fs fs1 dst hs1).1 q hq
      have hsrcInv1 : ∀ q, src <+: q → fs1.node q = st.fs.node q :=
        fun q hq => hF1 q (relB_sub_false hrel hq)
      have hmkChanges : ∀ q, fs1.node q ≠ st.fs.node q → q <+: dst := by
        intro q hq
        by_cases hex : st.fs.pathExists dst = true
        · rw [if_pos hex] at hs1
          injection hs1 with h1
          rw [← h1] at hq
          exact absurd rfl hq
        · rw [if_neg (by simpa using hex)] at hs1
          exact (mkdirAll_changes st.fs fs1 dst hs1 q hq).2.2.2
      cases hrd : FS.readDir fs1 src with
      | error e =>
        rw [hrd] at h
        injection h with h1 h2
        exact absurd h2 (by simp)
      | ok names =>
        rw [hrd] at h
        dsimp only at h
        obtain ⟨hnames, hfs1src, -⟩ := readDir_ok fs1 src names hrd
        have hstsrc : st.fs.node src = some Node.dir := by
          rw [← hsrcInv1 src (List.prefix_refl src)]
          exact hfs1src
        have hfs1dst : fs1.node dst = some Node.dir := by
          by_cases hex : st.fs.pathExists dst = true
          · rw [if_pos hex] at hs1
            injection hs1 with h1
            rw [← h1]
            obtain ⟨hsome, -⟩ := pathExists_node st.fs dst hex
            obtain ⟨nd, hnd⟩ := Option.isSome_iff_exists.mp hsome
            cases nd with
            | dir => exact hnd
            | file c =>
              exfalso
              exact hNC [] c (by simpa using hstsrc) (by simpa using hnd)
          · rw [if_neg (by simpa using hex)] at hs1
            exact mkdirAll_ok_dir st.fs fs1 dst hs1
        cases hloop : forEntries
            (dirStep args (fun s d st0 => copyDirectory args fuel s d st0) src dst) names
            { st with fs := fs1 } with
        | mk st2 r2 =>
          rw [hloop] at h
          cases r2 with
          | error e =>
            injection h with h1 h2
            exact absurd h2 (by simp)
          | ok u =>
            have hst' : st'.fs = st2.fs := by
              cases hv : args.verbose with
              | true =>
                rw [hv] at h
                simp only [if_true] at h
                injection h with h1 h2
                rw [← h1]
              | false =>
                rw [hv] at h
                simp only [Bool.false_eq_true, if_false] at h
                injection h with h1 h2
                rw [← h1]
            have hpres1 : ∀ n ∈ names, (fs1.node (src ++ [n])).isSome := by
              intro n hn
              rw [hnames] at hn
              exact childrenNames_sound fs1 src n hn
            have hGU1 : fs1.goodUnder src := goodUnder_transfer hsrcInv1 hGU
            have hNC1 : ∀ n ∈ names, ∀ rel c,
                fs1.node (src ++ [n] ++ rel) = some Node.dir →
                fs1.node (dst ++ [n] ++ rel) ≠ some (Node.file c) := by
              intro n hn rel c h1 h2
              have h1s : st.fs.node (src ++ [n] ++ rel) = some Node.dir := by
                rw [← hsrcInv1 _
                  ((List.prefix_append src [n]).trans (List.prefix_append _ rel))]
                exact h1
              have hnp : ¬ (dst ++ [n] ++ rel <+: dst) := by
                intro hc
                have := hc.length_le
                simp at this
              by_cases hch : fs1.node (dst ++ [n] ++ rel) = st.fs.node (dst ++ [n] ++ rel)
              · rw [hch] at h2
                refine hNC ([n] ++ rel) c ?_ ?_
                · rw [show src ++ ([n] ++ rel) = src ++ [n] ++ rel from
                    (List.append_assoc src [n] rel).symm]
                  exact h1s
                · rw [show dst ++ ([n] ++ rel) = dst ++ [n] ++ rel from
                    (List.append_assoc dst [n] rel).symm]
                  exact h2
              · exact hnp (hmkChanges _ hch)
            obtain ⟨hM1L, hM2L⟩ :=
              hloopM names { st with fs := fs1 } st2 hpres1 hGU1 hNC1 hloop
            refine ⟨?_, ?_⟩
            · intro rel nd hrelnode
              cases rel with
              | nil =>
                simp only [List.append_nil] at hrelnode ⊢
                rw [hstsrc] at hrelnode
                have hnd : nd = Node.dir := (Option.some.inj hrelnode).symm
                subst hnd
                rw [hst']
                exact forEntries_preserves_dir args fuel src dst names _ st2 _ hloop
                  dst hfs1dst
              | cons r rs =>
                have hrel1 : fs1.node (src ++ r :: rs) = some nd := by
                  rw [hsrcInv1 _ ⟨r :: rs, rfl⟩]
                  exact hrelnode
                have hrsome : (fs1.node (src ++ [r])).isSome := by
                  cases rs with
                  | nil =>
                    rw [hrel1]
                    rfl
                  | cons r2 rs2 =>
                    have h2 := hGU1 (r :: r2 :: rs2) 1 (by rw [hrel1]; rfl) (by omega)
                      (by simp)
                    have h2b : fs1.node (src ++ [r]) = some Node.dir := by
                      simpa using h2
                    rw [h2b]
                    rfl
                have hrmem : r ∈ names := by
                  rw [hnames]
                  obtain ⟨ndr, hndr⟩ := Option.isSome_iff_exists.mp hrsome
                  exact childrenNames_complete fs1 src r ndr hndr
                have hres := hM1L r hrmem rs nd
                  (by rw [show (src ++ [r] ++ rs : Path) = src ++ r :: rs from by simp]
                      exact hrel1)
                rw [hst', show (dst ++ r :: rs : Path) = dst ++ [r] ++ rs from by simp]
                exact hres
            · intro q hq
              rw [hst'] at hq
              by_cases hch2 : st2.fs.node q = fs1.node q
              · have hchm : fs1.node q ≠ st.fs.node q := by
                  rw [← hch2]
                  exact hq
                exact Or.inl (hmkChanges q hchm)
              · rcases hM2L q hch2 with h3 | ⟨rel2, h3, h4, h5⟩
                · exact Or.inl h3
                · refine Or.inr ⟨rel2, h3, ?_⟩
                  rw [← hsrcInv1 (src ++ rel2) ⟨rel2, rfl⟩]
                  exact h5

/-- C1 counterexample: the claim promises that after EVERY successful
recursive copy the destination mirrors the source; but copying the empty
directory `/s` over the pre-existing regular file `/d` succeeds without
touching anything — `copy_directory` skips `create_dir_all` because the
destination path exists — so the source root is a directory while the
destination root is still a regular file: the nesting does not match. -/
theorem copyDirectory_empty_dir_onto_file_cex :
    copyDirectory (mkArgs ["s"] ["d"] true false false) 1 ["s"] ["d"]
      (stOf fsEmptyDirOntoFile []) = (stOf fsEmptyDirOntoFile [], .ok ()) ∧
    fsEmptyDirOntoFile.node ["s"] = some Node.dir ∧
    fsEmptyDirOntoFile.node ["d"] = some (Node.file [7]) :=
  ⟨by rfl, by rfl, by rfl⟩

/-- C1 (amended): for every successful NON-INTERACTIVE recursive copy of a
tree-consistent source disjoint from the destination, provided no relative
path that is a directory under the source pre-exists as a regular file
under the destination: every relative path present under the source is
reproduced under the destination with identical node (same file contents,
same directory nesting), and every path the traversal changes is either a
prefix of the destination root (created by `create_dir_all`) or the
destination root joined with a relative path present under the source —
i.e. destination paths are derived from source paths by relative
substitution of the source root by the destination root, never from user
prompts or external state. -/
theorem copyDirectory_mirrors (args : Cli) (fuel : Nat) (src dst : Path) (st st' : St)
    (hint : args.interactive = false)
    (hrel : relB src dst = false)
    (hgu : st.fs.goodUnderB src = true)
    (hnc : st.fs.noConflictB src dst = true)
    (h : copyDirectory args fuel src dst st = (st', .ok ())) :
    (∀ rel nd, st.fs.node (src ++ rel) = some nd → st'.fs.node (dst ++ rel) = some nd) ∧
    (∀ q, st'.fs.node q ≠ st.fs.node q →
      q <+: dst ∨ ∃ rel, q = dst ++ rel ∧ (st.fs.node (src ++ rel)).isSome) :=
  mirror_copyDirectory args hint fuel src dst st st' hrel
    (goodUnderB_goodUnder st.fs src hgu (ne_nil_of_relB_false hrel))
    (noConflictB_noConflict st.fs src dst hnc (ne_nil_of_relB_false hrel)) h

/-- C1 witness: the spec's scenario — after copying `/a` to `/b`, the
nested file `/a/s/y` (bytes `[3]`) is present at `/b/s/y` with the same
bytes. -/
theorem copyDirectory_mirrors_witness :
    (copyDirectory (mkArgs ["a"] ["b"] true false false) 3 ["a"] ["b"]
      (stOf fsDemo [])).1.fs.node (["b"] ++ ["s", "y"]) = some (Node.file [3]) :=
  (copyDirectory_mirrors (mkArgs ["a"] ["b"] true false false) 3 ["a"] ["b"]
    (stOf fsDemo []) _ rfl (by decide) (by decide) (by decide) (by rfl)).1
    ["s", "y"] (Node.file [3]) (by decide)

end RustCp
